import Mathlib

/-!
Verification of rustylox, a bytecode interpreter for the Lox language
written in Rust.  The development shallowly embeds the parts of the
source crate that the statements below are about: the hash table
(`src/table.rs`), the value model and string interning (`src/value.rs`),
the lexer (`src/lexer.rs`), the compiler's precedence table and constant
emission (`src/compiler.rs`), and several instruction handlers of the
virtual machine (`src/vm.rs`).

Modelling conventions:
* `Rc<RefCell<...>>` heap references are modelled by numeric identities
  (`id` fields / `Nat` references); pointer equality becomes equality of
  identities.
* `f64` numbers are modelled by `Rat`; the only facts proved about them
  are the type dispatch and the `rhs == 0.0` divisor test.
* Loops whose termination in the source relies on a data-structure
  invariant (open-addressing probes, the lexer's comment recursion) are
  given explicit fuel; running out of fuel is modelled by `Option.none`
  ("the source loops forever here") and is unreachable under the stated
  invariants.
-/

namespace Rustylox

/-! ## Strings and hashing (src/value.rs, `StringObject`) -/

/-- UTF-8 encoding of one character, as the list of its byte values.
This models `str::as_bytes` in `StringObject::hash`, which iterates over
the UTF-8 bytes of the text. -/
def utf8Bytes (c : Char) : List Nat :=
  let v := c.toNat
  if v < 0x80 then [v]
  else if v < 0x800 then [0xC0 + v / 0x40, 0x80 + v % 0x40]
  else if v < 0x10000 then
    [0xE0 + v / 0x1000, 0x80 + (v / 0x40) % 0x40, 0x80 + v % 0x40]
  else
    [0xF0 + v / 0x40000, 0x80 + (v / 0x1000) % 0x40, 0x80 + (v / 0x40) % 0x40,
      0x80 + v % 0x40]

/-- The UTF-8 bytes of a string (`str::as_bytes`). -/
def stringBytes (s : String) : List Nat :=
  (s.data.map utf8Bytes).flatten

/-- FNV-1a 32-bit hash, translated from `StringObject::hash`:
`hash ^= byte; hash = hash.wrapping_mul(16777619)` starting from
`2166136261`, on `u32` (hence the `% 2^32`). -/
def fnvHash (s : String) : Nat :=
  (stringBytes s).foldl (fun h b => ((h ^^^ b) * 16777619) % 4294967296) 2166136261

/-- An interned string object.  `id` models the `Rc` allocation identity
(`Rc::ptr_eq` becomes equality of `id`); `value` is the text.  The
source also stores the FNV-1a hash, computed from the text at
construction (`StringObject::new`), so the stored hash is always
`fnvHash value`; we recompute it in `getHash` instead of storing it. -/
structure StringObj where
  id : Nat
  value : String
deriving DecidableEq, Repr

/-- Models `StringObject::get_hash` (the hash stored at construction). -/
def StringObj.getHash (k : StringObj) : Nat := fnvHash k.value

/-- Models `StringObject::are_equal_rc`, which is `Rc::ptr_eq`. -/
def StringObj.areEqualRc (lhs rhs : StringObj) : Bool := lhs.id = rhs.id

/-! ## Values (src/value.rs, `Value`) -/

/-- The tagged value union of `src/value.rs`.  Heap objects are
represented by reference identities; `f64` is modelled by `Rat`. -/
inductive LoxValue where
  | bool (b : Bool)
  | nil
  | number (q : Rat)
  | string (s : StringObj)
  | functionRef (r : Nat)
  | nativeFunction (r : Nat)
  | closureRef (r : Nat)
  | classRef (r : Nat)
  | instanceRef (r : Nat)
  | boundMethodRef (r : Nat)
deriving DecidableEq, Repr

/-- Models `ValueInterpretingError`. -/
structure ValueInterpretingError where
deriving DecidableEq, Repr

/-- Models `Value::get_number`. -/
def LoxValue.getNumber : LoxValue → Except ValueInterpretingError Rat
  | .number q => .ok q
  | _ => .error ⟨⟩

/-- Models `Value::is_class_object`. -/
def LoxValue.isClassObject : LoxValue → Bool
  | .classRef _ => true
  | _ => false

/-! ## The open-addressing hash table (src/table.rs) -/

/-- Models `TableEntry`: an occupied slot (key plus value), a tombstone
left by `remove`, or an empty slot. -/
inductive TableEntry where
  | value (key : StringObj) (v : LoxValue)
  | tombstone
  | empty
deriving DecidableEq, Repr

/-- Models `Table`: `entries_count` counts occupied slots and tombstones
together (see the comment on the `entries_count` field in the source). -/
structure Table where
  entriesCount : Nat
  entries : List TableEntry
deriving DecidableEq, Repr

/-- Reading `entries[index]`; the source indexes after `% entries.len()`
so the default is never used in reachable states. -/
def slotAt (entries : List TableEntry) (index : Nat) : TableEntry :=
  (entries[index]?).getD .empty

/-- Models `Table::INITIAL_TABLE_SIZE`. -/
def initialTableSize : Nat := 8

/-- Models `Table::new`. -/
def Table.new : Table :=
  ⟨0, List.replicate initialTableSize .empty⟩

/-- Models `(entries.len() as f32 * TABLE_MAX_LOAD) as usize` with
`TABLE_MAX_LOAD = 0.75`.  Table capacities are always `8 * 2^k`, for
which the `f32` product `len * 0.75` is exact and truncates to
`3 * len / 4`. -/
def tableMaxLoadLimit (len : Nat) : Nat := 3 * len / 4

/-- Models the probe loop of `Table::find_entry`.  `index` is the current
probe position (already reduced `% entries.len()`);
`firstTombstoneIndex` remembers the first tombstone passed.  The source
loop can only terminate by returning; with fuel `entries.length` every
slot is visited, and `none` models the infinite loop that the source
would enter if no empty slot nor the key were ever found. -/
def findEntryAux (entries : List TableEntry) (key : StringObj) :
    Nat → Nat → Option Nat → Option Nat
  | 0, _, _ => none
  | fuel + 1, index, firstTombstoneIndex =>
    match slotAt entries index with
    | .value k _ =>
        if k.id = key.id then some index
        else findEntryAux entries key fuel ((index + 1) % entries.length)
          firstTombstoneIndex
    | .tombstone =>
        -- `match first_tombstone_index { Some(_) => unchanged, None => Some(index) }`
        findEntryAux entries key fuel ((index + 1) % entries.length)
          (some (firstTombstoneIndex.getD index))
    | .empty =>
        -- `match first_tombstone_index { Some(id) => id, None => index }`
        some (firstTombstoneIndex.getD index)

/-- Models `Table::find_entry` (key comparison is `Rc::ptr_eq`, i.e. `id`
equality; the probe starts at `key.get_hash() % entries.len()`). -/
def findEntry (entries : List TableEntry) (key : StringObj) : Option Nat :=
  findEntryAux entries key entries.length (key.getHash % entries.length) none

/-- Models `InsertResult`. -/
inductive InsertResult where
  | added
  | replaced
deriving DecidableEq, Repr

/-- Models the rehashing pass of `Table::adjust_size`: for every occupied
slot of the old array (in index order), find its position in the new
array and place it, counting the placed entries. -/
def adjustSizeAux : List TableEntry → List TableEntry → Nat →
    Option (List TableEntry × Nat)
  | [], newEntries, newCount => some (newEntries, newCount)
  | .value k v :: rest, newEntries, newCount =>
      match findEntry newEntries k with
      | none => none
      | some destIndex =>
          adjustSizeAux rest (newEntries.set destIndex (.value k v)) (newCount + 1)
  | .tombstone :: rest, newEntries, newCount => adjustSizeAux rest newEntries newCount
  | .empty :: rest, newEntries, newCount => adjustSizeAux rest newEntries newCount

/-- Models `Table::adjust_size`. -/
def Table.adjustSize (t : Table) (newCapacity : Nat) : Option Table :=
  (adjustSizeAux t.entries (List.replicate newCapacity .empty) 0).map
    fun p => ⟨p.2, p.1⟩

/-- The placement phase of `Table::insert` (everything after the growth
check): probe for the entry index; an `Empty` destination reports
`Added` and increments the count, an occupied slot or a `Tombstone`
reports `Replaced`; either way the new entry is stored there. -/
def Table.placeEntry (t : Table) (key : StringObj) (v : LoxValue) :
    Option (InsertResult × Table) :=
  match findEntry t.entries key with
  | none => none
  | some entryIndex =>
    match slotAt t.entries entryIndex with
    | .value _ _ =>
        some (.replaced, ⟨t.entriesCount, t.entries.set entryIndex (.value key v)⟩)
    | .empty =>
        some (.added, ⟨t.entriesCount + 1, t.entries.set entryIndex (.value key v)⟩)
    | .tombstone =>
        some (.replaced, ⟨t.entriesCount, t.entries.set entryIndex (.value key v)⟩)

/-- Models `Table::insert`: grow when `entries_count + 1` exceeds the
load limit, then place the entry. -/
def Table.insert (t : Table) (key : StringObj) (v : LoxValue) :
    Option (InsertResult × Table) :=
  let grown : Option Table :=
    if t.entriesCount + 1 > tableMaxLoadLimit t.entries.length then
      t.adjustSize (t.entries.length * 2)
    else some t
  match grown with
  | none => none
  | some t => t.placeEntry key v

/-- Models `KeyNotFound`. -/
structure KeyNotFound where
deriving DecidableEq, Repr

/-- Models `Table::get`. -/
def Table.get (t : Table) (key : StringObj) : Option (Except KeyNotFound LoxValue) :=
  if t.entriesCount = 0 then some (.error ⟨⟩)
  else
    match findEntry t.entries key with
    | none => none
    | some resultId =>
      match slotAt t.entries resultId with
      | .value _ v => some (.ok v)
      | _ => some (.error ⟨⟩)

/-- Models `Table::remove`: an occupied slot becomes a tombstone
(`entries_count` is not decremented); otherwise `KeyNotFound`. -/
def Table.remove (t : Table) (key : StringObj) : Option (Except KeyNotFound Table) :=
  if t.entriesCount = 0 then some (.error ⟨⟩)
  else
    match findEntry t.entries key with
    | none => none
    | some entryId =>
      match slotAt t.entries entryId with
      | .value _ _ => some (.ok ⟨t.entriesCount, t.entries.set entryId .tombstone⟩)
      | _ => some (.error ⟨⟩)

/-- Models the content-comparison probe loop of `Table::find_string`.
The inner `Option` is the source's return value (found key or not
found); the outer `Option` is fuel exhaustion as in `findEntryAux`. -/
def findStringAux (entries : List TableEntry) (s : String) :
    Nat → Nat → Option (Option StringObj)
  | 0, _ => none
  | fuel + 1, index =>
    match slotAt entries index with
    | .value k _ =>
        if k.value = s then some (some k)
        else findStringAux entries s fuel ((index + 1) % entries.length)
    | .tombstone => findStringAux entries s fuel ((index + 1) % entries.length)
    | .empty => some none

/-- Models `Table::find_string` (early `None` when `entries_count == 0`,
probe from `StringObject::hash(new_string) % entries.len()`). -/
def Table.findString (t : Table) (s : String) : Option (Option StringObj) :=
  if t.entriesCount = 0 then some none
  else findStringAux t.entries s t.entries.length (fnvHash s % t.entries.length)

/-- Models `Value::new_string_object`: return the interned object when
`find_string` finds one with the same content, otherwise allocate a
fresh `StringObject` (fresh `id` drawn from `nextId`, which models the
`Rc` allocator) and insert it into the intern table with a `Nil` value. -/
def newStringObject (value : String) (internStrings : Table) (nextId : Nat) :
    Option (StringObj × Table × Nat) :=
  match internStrings.findString value with
  | none => none
  | some (some alreadyExisting) => some (alreadyExisting, internStrings, nextId)
  | some none =>
      let key : StringObj := ⟨nextId, value⟩
      match internStrings.insert key .nil with
      | none => none
      | some (_, t') => some (key, t', nextId + 1)

/-! ## Bytecode (src/chunk.rs, `OperationCode`) -/

/-- Models `OperationCode`; `u8`/`u16` operands are `Nat`s that are kept
below `2^8`/`2^16` by the emitters. -/
inductive OperationCode where
  | opReturn
  | constant (i : Nat)
  | opNil
  | opTrue
  | opFalse
  | opNot
  | negate
  | add
  | substract
  | multiply
  | divide
  | equal
  | greater
  | less
  | print
  | popStack
  | defineGlobal (i : Nat)
  | getGlobal (i : Nat)
  | setGlobal (i : Nat)
  | getLocal (i : Nat)
  | setLocal (i : Nat)
  | jumpIfFalse (o : Nat)
  | jump (o : Nat)
  | jumpIfTrue (o : Nat)
  | jumpBack (o : Nat)
  | call (n : Nat)
  | closure (i : Nat)
  | localUpvalue (i : Nat)
  | nonLocalUpvalue (i : Nat)
  | getUpvalue (i : Nat)
  | setUpvalue (i : Nat)
  | closeUpvalue
  | opClass (i : Nat)
  | getProperty (i : Nat)
  | setProperty (i : Nat)
  | method (i : Nat)
  | invokeProperty (i : Nat) (n : Nat)
  | inherit
  | getSuper (i : Nat)
  | invokeSuperMethod (i : Nat) (n : Nat)
deriving DecidableEq, Repr

/-! ## Virtual machine (src/vm.rs) -/

/-- Models `VirtualMachineError`. -/
inductive VirtualMachineError where
  | invalidInstructionFormat
  | emptyStack
  | stackOutOfBounds
  | invalidVariableType
  | divideByZero
  | invalidVariableNameType
  | undefinedVariable
  | callOnNotCallable
  | invalidArgumentsCount
  | handlingUpvalueOutsideOfClosure
  | notEnoughUpvaluesInClosure
  | upvalueIncorrectFieldAccess
  | propertyOutsideInstance
  | undefinedProperty
  | handlingMethodWithoutClass
deriving DecidableEq, Repr

/-- Models `VirtualMachine::stack_pop`.  The stack grows at the end of
the list (index `0` is the bottom, as in the source's `Vec`). -/
def stackPop (stack : List LoxValue) :
    Except VirtualMachineError (LoxValue × List LoxValue) :=
  match stack.getLast? with
  | none => .error .emptyStack
  | some v => .ok (v, stack.dropLast)

/-- Models `VirtualMachine::divide_numbers`: both operands must be
numbers, and a divisor equal to `0.0` is a `DivideByZero` error. -/
def divideNumbers (lhs rhs : LoxValue) : Except VirtualMachineError LoxValue :=
  match lhs.getNumber with
  | .error _ => .error .invalidVariableType
  | .ok l =>
    match rhs.getNumber with
    | .error _ => .error .invalidVariableType
    | .ok r =>
      if r = 0 then .error .divideByZero
      else .ok (.number (l / r))

/-- Models the `OperationCode::Divide` arm of `VirtualMachine::run`:
`read_binary_operation_arguments` pops `rhs` then `lhs`, and every error
of `divide_numbers` aborts the run with that error (after printing a
runtime-error message). -/
def divideArm (stack : List LoxValue) :
    Except VirtualMachineError (List LoxValue) :=
  match stackPop stack with
  | .error e => .error e
  | .ok (rhs, stack) =>
    match stackPop stack with
    | .error e => .error e
    | .ok (lhs, stack) =>
      match divideNumbers lhs rhs with
      | .ok value => .ok (stack ++ [value])
      | .error e => .error e

/-- Models the `OperationCode::SetGlobal` arm of `VirtualMachine::run`
(the name has already been read from the constant pool, and the assigned
value is `stack_peek(0)`; the stack itself is not modified by the arm).
An `Added` result means the variable had not been defined, so the insert
is rolled back with `remove` (leaving a tombstone) and the arm fails
with `UndefinedVariable`; a `Replaced` result succeeds.  The outer
`Option` propagates table-probe divergence as elsewhere; the source's
`expect` on the rollback is modelled by `none` as well. -/
def setGlobalArm (globals : Table) (name : StringObj) (stackTop : LoxValue) :
    Option (Except VirtualMachineError Unit × Table) :=
  match globals.insert name stackTop with
  | none => none
  | some (.added, g1) =>
    match g1.remove name with
    | none => none
    | some (.error _) => none
    | some (.ok g2) => some (.error .undefinedVariable, g2)
  | some (.replaced, g1) => some (.ok (), g1)

/-- Models `UpvalueObject` plus its `Rc` identity.  `stackIndex` is
`some i` while the captured variable is still on the stack; closing
stores the captured value in `variableValue` (the source's `variable`
field) and clears `stackIndex`. -/
structure UpvalueObj where
  id : Nat
  stackIndex : Option Nat
  variableValue : Option LoxValue
deriving DecidableEq, Repr

/-- Models the `expect` on `stack_index` in `close_upvalue`; every open
upvalue has `stackIndex = some _`, so the default is unreachable. -/
def stackIndexOrPanic (u : UpvalueObj) : Nat := u.stackIndex.getD 0

/-- Rust's `Option<usize>` ordering: `None < Some(x)`, `Some` by value. -/
def rustOptionNatLE : Option Nat → Option Nat → Bool
  | none, _ => true
  | some _, none => false
  | some x, some y => x ≤ y

/-- The order of the `BTreeSet<UpvalueObjectBTreeWrapper>`: the derived
wrapper `Ord` delegates to `impl Ord for UpvalueObject`, which compares
`other.stack_index.cmp(&self.stack_index)` (descending by stack index). -/
def upvalueSetLE (a b : UpvalueObj) : Bool := rustOptionNatLE b.stackIndex a.stackIndex

/-- Insertion into the sorted list modelling the `BTreeSet` (called only
after `get` found no element comparing equal). -/
def btreeInsert (u : UpvalueObj) : List UpvalueObj → List UpvalueObj
  | [] => [u]
  | x :: xs => if upvalueSetLE u x then u :: x :: xs else x :: btreeInsert u xs

/-- Models `CallFrame`.  `stackStart` is a `u8` in the source. -/
structure CallFrame where
  closureRef : Nat
  instructionPointer : Nat
  stackStart : Nat
deriving DecidableEq, Repr

/-- Models the run-time state of `VirtualMachine::run`: `frame` is the
local variable holding the currently executing frame, `frames` is
`self.frames` with the most recently pushed frame first, `stack` has its
bottom at index `0`.  `openUpvalues` models the `BTreeSet` (kept sorted
by `upvalueSetLE`); `closedUpvalues` records the objects that
`close_upvalue` mutated to their `Closed` form (in the source they live
on inside closures); `nextUpvalueId` models the `Rc` allocator. -/
structure VMRunState where
  frame : CallFrame
  frames : List CallFrame
  stack : List LoxValue
  openUpvalues : List UpvalueObj
  closedUpvalues : List UpvalueObj
  nextUpvalueId : Nat
deriving DecidableEq, Repr

/-- Models `VirtualMachine::capture_upvalue`: build a fresh open upvalue
for `index`, look it up in `open_upvalues` (the `BTreeSet::get` compares
by stack index only), return the already existing one when found, and
otherwise insert and return the fresh one. -/
def captureUpvalue (st : VMRunState) (index : Nat) : UpvalueObj × VMRunState :=
  let newUpvalue : UpvalueObj := ⟨st.nextUpvalueId, some index, none⟩
  match st.openUpvalues.find? (fun u => u.stackIndex == some index) with
  | some alreadyExisiting => (alreadyExisiting, st)
  | none =>
      (newUpvalue,
        { st with
            openUpvalues := btreeInsert newUpvalue st.openUpvalues,
            nextUpvalueId := st.nextUpvalueId + 1 })

/-- Models `VirtualMachine::close_upvalue`: every open upvalue whose
stack index is `≥ lastToRemove` is removed from the set and mutated to
its `Closed` form, capturing the current stack value at its index. -/
def closeUpvalueOp (st : VMRunState) (lastToRemove : Nat) : VMRunState :=
  let toClose := st.openUpvalues.filter (fun u => lastToRemove ≤ stackIndexOrPanic u)
  { st with
      openUpvalues :=
        st.openUpvalues.filter (fun u => ¬(lastToRemove ≤ stackIndexOrPanic u)),
      closedUpvalues := st.closedUpvalues ++
        toClose.map (fun u =>
          { u with
              variableValue := some ((st.stack[stackIndexOrPanic u]?).getD .nil),
              stackIndex := none }) }

/-- Outcome of one `Return` dispatch: the program halts (the implicit
script frame returned) or execution continues in the caller's frame. -/
inductive StepOutcome where
  | halted (st : VMRunState)
  | running (st : VMRunState)
deriving DecidableEq, Repr

/-- Models the `OperationCode::Return` arm of `VirtualMachine::run`: pop
the result, close the returning frame's upvalues, and either halt (no
caller frames remain; the script closure is popped too) or truncate the
stack to the frame's `stack_start`, pop the caller frame into the local
`frame` variable and push the result back.  The `none` cases model the
source's `expect` panics. -/
def returnArm (st : VMRunState) : Option StepOutcome :=
  match st.stack.getLast? with
  | none => none
  | some result =>
    let st1 := { st with stack := st.stack.dropLast }
    let st2 := closeUpvalueOp st1 st.frame.stackStart
    match st2.frames with
    | [] =>
      match st2.stack.getLast? with
      | none => none
      | some _ => some (.halted { st2 with stack := st2.stack.dropLast })
    | newFrame :: restFrames =>
      some (.running
        { st2 with
            stack := (st2.stack.take st.frame.stackStart) ++ [result],
            frame := newFrame,
            frames := restFrames })

/-- The number of active invocations: the frame held in `run`'s local
variable plus the saved frames. -/
def frameDepth (st : VMRunState) : Nat := st.frames.length + 1

/-! ## Lexer (src/lexer.rs)

The lexer walks a `Peekable<Chars>` while `is_at_end` compares the count
of consumed characters against `original_source.len()` (a byte count),
so the two agree exactly on sources whose characters are one byte each
(ASCII); the theorems below assume the corresponding synchronisation
`originalLen = current + rest.length`.  The character classes
`is_alphabetic` / `is_alphanumeric` are translated with their ASCII
meaning (they agree with Rust on every ASCII character, in particular on
`'_'`, which is in neither class); `is_whitespace` and
`is_ascii_digit` are translated exactly. -/

/-- Models `TokenType`. -/
inductive TokenType where
  | leftParen
  | rightParen
  | leftBrace
  | rightBrace
  | comma
  | dot
  | minus
  | plus
  | semicolon
  | star
  | slash
  | bang
  | bangEqual
  | equal
  | equalEqual
  | greater
  | greaterEqual
  | less
  | lessEqual
  | identifier
  | string
  | number
  | andKw
  | classKw
  | elseKw
  | falseKw
  | forKw
  | funKw
  | ifKw
  | nilKw
  | orKw
  | printKw
  | returnKw
  | superKw
  | thisKw
  | trueKw
  | varKw
  | whileKw
  | eof
deriving DecidableEq, Repr

/-- Models `Token`. -/
structure Token where
  tokenType : TokenType
  start : Nat
  length : Nat
  line : Nat
deriving DecidableEq, Repr

/-- Models `LexerError`. -/
structure LexerError where
  message : String
  line : Nat
deriving DecidableEq, Repr

/-- Models `char::is_whitespace` (the Unicode `White_Space` property),
exactly. -/
def rustIsWhitespace (c : Char) : Bool :=
  let v := c.toNat
  decide ((0x09 ≤ v ∧ v ≤ 0x0D) ∨ v = 0x20 ∨ v = 0x85 ∨ v = 0xA0 ∨ v = 0x1680 ∨
    (0x2000 ≤ v ∧ v ≤ 0x200A) ∨ v = 0x2028 ∨ v = 0x2029 ∨ v = 0x202F ∨
    v = 0x205F ∨ v = 0x3000)

/-- Models `char::is_alphabetic` restricted to its ASCII behaviour
(`'a'..='z' | 'A'..='Z'`); agrees with Rust on all ASCII characters. -/
def rustIsAlphabetic (c : Char) : Bool := c.isAlpha

/-- Models `char::is_alphanumeric` restricted to its ASCII behaviour;
agrees with Rust on all ASCII characters. -/
def rustIsAlphanumeric (c : Char) : Bool := c.isAlphanum

/-- Models `char::is_ascii_digit`, exactly. -/
def rustIsAsciiDigit (c : Char) : Bool := c.isDigit

/-- Models `Lexer`: `rest` is the unconsumed part of the character
iterator, `originalSource` the full character sequence (used by
`check_for_keyword`'s slicing), `originalLen` the byte length
`original_source.len()`. -/
structure LexState where
  start : Nat
  current : Nat
  line : Nat
  rest : List Char
  originalSource : List Char
  originalLen : Nat
deriving DecidableEq, Repr

/-- Models `Lexer::new`. -/
def initLexer (s : String) : LexState :=
  ⟨0, 0, 1, s.data, s.data, (stringBytes s).length⟩

/-- Models `Lexer::peek` (`None` becomes `'\0'`). -/
def LexState.peek (st : LexState) : Char := st.rest.head?.getD '\x00'

/-- Models `Lexer::is_at_end`. -/
def LexState.isAtEnd (st : LexState) : Bool := st.originalLen ≤ st.current

/-- Models `Lexer::advance`.  The source `expect`s a next character; the
`'\0'` default is unreachable because every caller first checks
`is_at_end` or `peek`. -/
def LexState.advance (st : LexState) : Char × LexState :=
  (st.rest.head?.getD '\x00',
    { st with current := st.current + 1, rest := st.rest.tail })

/-- The loop of `Lexer::skip_whitespaces` over the unconsumed
characters: returns the remaining characters, the consumed-character
count and the line number. -/
def skipWhitespacesAux : List Char → Nat → Nat → List Char × Nat × Nat
  | [], current, line => ([], current, line)
  | c :: rest, current, line =>
    if rustIsWhitespace c then
      skipWhitespacesAux rest (current + 1) (if c = '\n' then line + 1 else line)
    else (c :: rest, current, line)

/-- Models `Lexer::skip_whitespaces`. -/
def skipWhitespaces (st : LexState) : LexState :=
  let r := skipWhitespacesAux st.rest st.current st.line
  { st with rest := r.1, current := r.2.1, line := r.2.2 }

/-- The loop of `Lexer::skip_comment` (`while peek != '\n' &&
!is_at_end { advance }`).  On an exhausted iterator with
`current < originalLen` the source's `advance` would panic; the model
stops there instead (unreachable under synchronisation). -/
def skipCommentAux (originalLen : Nat) : List Char → Nat → List Char × Nat
  | [], current => ([], current)
  | c :: rest, current =>
    if c ≠ '\n' ∧ current < originalLen then skipCommentAux originalLen rest (current + 1)
    else (c :: rest, current)

/-- Models `Lexer::skip_comment`. -/
def skipComment (st : LexState) : LexState :=
  let r := skipCommentAux st.originalLen st.rest st.current
  { st with rest := r.1, current := r.2 }

/-- Models `Lexer::make_token`. -/
def makeToken (st : LexState) (tokenType : TokenType) : Token :=
  ⟨tokenType, st.start, st.current - st.start, st.line⟩

/-- Models `Lexer::create_error`. -/
def createError (st : LexState) (message : String) : LexerError :=
  ⟨message, st.line⟩

/-- Models `Lexer::match_current`. -/
def matchCurrent (st : LexState) (expected : Char) : Bool × LexState :=
  if st.isAtEnd then (false, st)
  else if expected ≠ st.peek then (false, st)
  else (true, (st.advance).2)

/-- Models `Lexer::handle_one_or_two_character_token`. -/
def handleOneOrTwoCharacterToken (st : LexState) (nextExpected : Char)
    (twoCharacterCase oneCharacterCase : TokenType) : Token × LexState :=
  let r := matchCurrent st nextExpected
  if r.1 then (makeToken r.2 twoCharacterCase, r.2)
  else (makeToken r.2 oneCharacterCase, r.2)

/-- Models `Lexer::check_for_keyword`.  The source slices
`original_source[start+skip .. start+skip+expected.len()]` (which panics
when the window leaves the source; the model's slice just comes up
short and the comparison fails). -/
def checkForKeyword (st : LexState) (skip : Nat) (expected : String)
    (tokenType : TokenType) : TokenType :=
  let startIndex := st.start + skip
  let actual := (st.originalSource.drop startIndex).take expected.length
  if actual = expected.data then tokenType else .identifier

/-- Models `Lexer::figure_identifier_type` (the two-character keyword
trie). -/
def figureIdentifierType (st : LexState) (firstLetter : Char)
    (secondLetter : Option Char) : TokenType :=
  match secondLetter with
  | none => .identifier
  | some _ =>
    match firstLetter with
    | 'a' => checkForKeyword st 1 "nd" .andKw
    | 'c' => checkForKeyword st 1 "lass" .classKw
    | 'e' => checkForKeyword st 1 "lse" .elseKw
    | 'f' =>
      match secondLetter with
      | some 'a' => checkForKeyword st 2 "lse" .falseKw
      | some 'o' => checkForKeyword st 2 "r" .forKw
      | some 'u' => checkForKeyword st 2 "n" .funKw
      | _ => .identifier
    | 'i' => checkForKeyword st 1 "f" .ifKw
    | 'n' => checkForKeyword st 1 "il" .nilKw
    | 'o' => checkForKeyword st 1 "r" .orKw
    | 'p' => checkForKeyword st 1 "rint" .printKw
    | 'r' => checkForKeyword st 1 "eturn" .returnKw
    | 's' => checkForKeyword st 1 "uper" .superKw
    | 't' =>
      match secondLetter with
      | some 'h' => checkForKeyword st 2 "is" .thisKw
      | some 'r' => checkForKeyword st 2 "ue" .trueKw
      | _ => .identifier
    | 'v' => checkForKeyword st 1 "ar" .varKw
    | 'w' => checkForKeyword st 1 "hile" .whileKw
    | _ => .identifier

/-- The loop of `Lexer::make_identifier_token` (`while
peek().is_alphanumeric() { advance }`, remembering the second letter). -/
def identifierAux : List Char → Nat → Option Char → List Char × Nat × Option Char
  | [], current, secondLetter => ([], current, secondLetter)
  | c :: rest, current, secondLetter =>
    if rustIsAlphanumeric c then
      identifierAux rest (current + 1)
        (match secondLetter with
          | none => some c
          | some s => some s)
    else (c :: rest, current, secondLetter)

/-- Models `Lexer::make_identifier_token`. -/
def makeIdentifierToken (st : LexState) (firstLetter : Char) : Token × LexState :=
  let r := identifierAux st.rest st.current none
  let st := { st with rest := r.1, current := r.2.1 }
  (makeToken st (figureIdentifierType st firstLetter r.2.2), st)

/-- The digit-consuming loop of `Lexer::make_number_token`. -/
def digitsAux : List Char → Nat → List Char × Nat
  | [], current => ([], current)
  | c :: rest, current =>
    if rustIsAsciiDigit c then digitsAux rest (current + 1)
    else (c :: rest, current)

/-- Models `Lexer::make_number_token`. -/
def makeNumberToken (st : LexState) : Except LexerError (Token × LexState) :=
  let r := digitsAux st.rest st.current
  let st := { st with rest := r.1, current := r.2 }
  let m := matchCurrent st '.'
  if m.1 then
    let st := m.2
    if ¬rustIsAsciiDigit st.peek then .error (createError st "Expected fractional part after '.'.")
    else
      let r2 := digitsAux st.rest st.current
      let st := { st with rest := r2.1, current := r2.2 }
      .ok (makeToken st .number, st)
  else .ok (makeToken m.2 .number, m.2)

/-- The scanning loop of `Lexer::make_string_token` (`while peek != '"'
&& !is_at_end`), threading the line counter. -/
def stringAux (originalLen : Nat) : List Char → Nat → Nat → List Char × Nat × Nat
  | [], current, line => ([], current, line)
  | c :: rest, current, line =>
    if c ≠ '"' ∧ current < originalLen then
      stringAux originalLen rest (current + 1) (if c = '\n' then line + 1 else line)
    else (c :: rest, current, line)

/-- Models `Lexer::make_string_token`. -/
def makeStringToken (st : LexState) : Except LexerError (Token × LexState) :=
  let r := stringAux st.originalLen st.rest st.current st.line
  let st := { st with rest := r.1, current := r.2.1, line := r.2.2 }
  if st.isAtEnd then .error (createError st "Unterminated string")
  else
    let st := (st.advance).2
    .ok (makeToken st .string, st)

/-- Models `Lexer::scan_token`.  The only recursion is the tail call
after a `//` comment; it is given fuel (the comment path consumes at
least the two slashes, so `rest.length + 1` units always suffice and
the fuel-out `none` is unreachable). -/
def scanTokenAux : Nat → LexState → Option (Except LexerError (Token × LexState))
  | 0, _ => none
  | fuel + 1, st =>
    let st := skipWhitespaces st
    let st := { st with start := st.current }
    if st.isAtEnd then some (.ok (makeToken st .eof, st))
    else
      let a := st.advance
      let c := a.1
      let st := a.2
      if rustIsAlphabetic c then some (.ok (makeIdentifierToken st c))
      else if rustIsAsciiDigit c then some (makeNumberToken st)
      else
        match c with
        | '(' => some (.ok (makeToken st .leftParen, st))
        | ')' => some (.ok (makeToken st .rightParen, st))
        | '{' => some (.ok (makeToken st .leftBrace, st))
        | '}' => some (.ok (makeToken st .rightBrace, st))
        | ';' => some (.ok (makeToken st .semicolon, st))
        | ',' => some (.ok (makeToken st .comma, st))
        | '.' => some (.ok (makeToken st .dot, st))
        | '-' => some (.ok (makeToken st .minus, st))
        | '+' => some (.ok (makeToken st .plus, st))
        | '*' => some (.ok (makeToken st .star, st))
        | '/' =>
          if st.peek = '/' then scanTokenAux fuel (skipComment st)
          else some (.ok (makeToken st .slash, st))
        | '!' => some (.ok (handleOneOrTwoCharacterToken st '=' .bangEqual .bang))
        | '=' => some (.ok (handleOneOrTwoCharacterToken st '=' .equalEqual .equal))
        | '<' => some (.ok (handleOneOrTwoCharacterToken st '=' .lessEqual .less))
        | '>' => some (.ok (handleOneOrTwoCharacterToken st '=' .greaterEqual .greater))
        | '"' => some (makeStringToken st)
        | _ => some (.error (createError st "Unexpected character."))

/-- Entry point for one `scan_token` call. -/
def scanToken (st : LexState) : Option (Except LexerError (Token × LexState)) :=
  scanTokenAux (st.rest.length + 1) st

/-! ## Compiler (src/compiler.rs): precedence table and constant emission -/

/-- Models `Precedence`. -/
inductive Precedence where
  | none
  | assignment
  | or
  | and
  | equality
  | comparison
  | term
  | factor
  | unary
  | call
  | primary
deriving DecidableEq, Repr

/-- Models `From<Precedence> for u8`. -/
def Precedence.toU8 : Precedence → Nat
  | .none => 0
  | .assignment => 1
  | .or => 2
  | .and => 3
  | .equality => 4
  | .comparison => 5
  | .term => 6
  | .factor => 7
  | .unary => 8
  | .call => 9
  | .primary => 10

/-- Models `TryFrom<u8> for Precedence`. -/
def Precedence.tryFromU8 : Nat → Option Precedence
  | 0 => some .none
  | 1 => some .assignment
  | 2 => some .or
  | 3 => some .and
  | 4 => some .equality
  | 5 => some .comparison
  | 6 => some .term
  | 7 => some .factor
  | 8 => some .unary
  | 9 => some .call
  | 10 => some .primary
  | _ => Option.none

/-- Models `Precedence::get_higher` (the highest level maps to itself). -/
def Precedence.getHigher (p : Precedence) : Precedence :=
  match Precedence.tryFromU8 (p.toU8 + 1) with
  | some higher => higher
  | Option.none => p

/-- Models `impl From<&TokenType> for Precedence`, the compiler's infix
precedence table. -/
def precedenceOfTokenType : TokenType → Precedence
  | .leftParen => .call
  | .rightParen => .none
  | .leftBrace => .none
  | .rightBrace => .none
  | .comma => .none
  | .dot => .call
  | .minus => .term
  | .plus => .term
  | .semicolon => .none
  | .star => .factor
  | .slash => .factor
  | .bang => .none
  | .bangEqual => .equality
  | .equal => .none
  | .equalEqual => .equality
  | .greater => .equality
  | .greaterEqual => .equality
  | .less => .equality
  | .lessEqual => .equality
  | .identifier => .none
  | .string => .none
  | .number => .none
  | .andKw => .and
  | .classKw => .none
  | .elseKw => .none
  | .falseKw => .none
  | .forKw => .none
  | .funKw => .none
  | .ifKw => .none
  | .nilKw => .none
  | .orKw => .or
  | .printKw => .none
  | .returnKw => .none
  | .superKw => .none
  | .thisKw => .none
  | .trueKw => .none
  | .varKw => .none
  | .whileKw => .none
  | .eof => .none

/-- The loop guard of `Compiler::parse_precendence`: an infix operator
token is consumed while `precedence as u8 <= Precedence::from(current)
as u8`. -/
def parsePrecedenceConsumes (precedence : Precedence) (current : TokenType) : Bool :=
  precedence.toU8 ≤ (precedenceOfTokenType current).toU8

/-- The chunk-and-error state of the current function's compiler that
constant emission touches: the constant pool of the chunk
(`ValueContainer`), the emitted instructions, and the parser's
`in_error_state` flag (set by `handle_error_at_token`). -/
structure CompilerState where
  constants : List LoxValue
  code : List OperationCode
  hadError : Bool
deriving DecidableEq, Repr

/-- Models `Compiler::make_constant` / `Chunk::add_constant`: push the
constant and return its index (`values.len() - 1`). -/
def makeConstant (constant : LoxValue) (st : CompilerState) : Nat × CompilerState :=
  (st.constants.length, { st with constants := st.constants ++ [constant] })

/-- Models `Compiler::emit_constant`.  The source guard is
`if index as u8 > u8::MAX`; `index as u8` is the truncation
`index % 256`, so the guard compares `index % 256 > 255`. -/
def emitConstant (constant : LoxValue) (st : CompilerState) : CompilerState :=
  let r := makeConstant constant st
  let index := r.1
  let st := r.2
  if index % 256 > 255 then { st with hadError := true }
  else { st with code := st.code ++ [.constant (index % 256)] }

/-- Models `Compiler::make_identifier_constant` (the name value has
already been interned by `Value::new_string_object`, modelled separately
by `newStringObject`); same `index as u8 > u8::MAX` guard, returning `0`
on the error path and `index as u8` otherwise. -/
def makeIdentifierConstant (nameValue : LoxValue) (st : CompilerState) :
    Nat × CompilerState :=
  let r := makeConstant nameValue st
  let index := r.1
  let st := r.2
  if index % 256 > 255 then (0, { st with hadError := true })
  else (index % 256, st)

/-! ## The `Inherit` instruction (spec §4.4.5) -/

/-- A runtime-error message, as printed by
`VirtualMachine::runtime_error_message`. -/
structure RuntimeErrorMessage where
  message : String
deriving DecidableEq, Repr

/-- Modelled from the spec: a class object (`ClassObject`), with its
method table as an association list keyed by interned name identity. -/
structure ClassObj where
  name : String
  methods : List (StringObj × LoxValue)
deriving DecidableEq, Repr

/-- Method lookup by interned-name identity (the source's method
`Table` compares keys with `Rc::ptr_eq`). -/
def methodLookup (methods : List (StringObj × LoxValue)) (name : StringObj) :
    Option LoxValue :=
  (methods.find? (fun p => p.1.id == name.id)).map (fun p => p.2)

/-- Insertion with the source `Table::insert` semantics on an
association list: replace the entry with the same key identity, or add
the new entry. -/
def methodInsert (methods : List (StringObj × LoxValue)) (name : StringObj)
    (v : LoxValue) : List (StringObj × LoxValue) :=
  if (methods.find? (fun p => p.1.id == name.id)).isSome then
    methods.map (fun p => if p.1.id == name.id then (p.1, v) else p)
  else methods ++ [(name, v)]

/-- Modelled from the spec: `Table::insert_all_from` applied to the
method tables — every entry of the base table is inserted into the
subclass table. -/
def mergeMethodTables (base sub : List (StringObj × LoxValue)) :
    List (StringObj × LoxValue) :=
  base.foldl (fun acc p => methodInsert acc p.1 p.2) sub

/-- Modelled from the spec: the VM state visible to `Inherit` — the
value stack and the class heap (class reference ↦ class object). -/
structure InheritState where
  stack : List LoxValue
  classes : List (Nat × ClassObj)
deriving DecidableEq, Repr

/-- Resolving a class reference in the class heap. -/
def lookupClass (classes : List (Nat × ClassObj)) (r : Nat) : Option ClassObj :=
  (classes.find? (fun p => p.1 == r)).map (fun p => p.2)

/-- Updating a class object in the class heap. -/
def updateClass (classes : List (Nat × ClassObj)) (r : Nat) (c : ClassObj) :
    List (Nat × ClassObj) :=
  classes.map (fun p => if p.1 == r then (p.1, c) else p)

/-- Modelled from the spec: the `Inherit` dispatch arm, which is absent
from `VirtualMachine::run` in the source (`src/vm.rs` handles every
opcode except `Inherit`, `GetSuper` and `InvokeSuperMethod`; only the
opcode in `src/chunk.rs` and the compiler's emit site exist).  Spec
§4.4.5: "`Inherit` requires the value beneath the top to be a Class
(else runtime error "Superclass must be a class."); it copies the base
class's method table into the subclass."  The subclass on top of the
stack is guaranteed to be a class by the compiler's emission pattern;
the non-class-top and dangling-reference branches are unreachable. -/
def inheritStep (st : InheritState) : Except RuntimeErrorMessage InheritState :=
  match st.stack.getLast?, st.stack.dropLast.getLast? with
  | some subclassValue, some superclassValue =>
    match superclassValue with
    | .classRef baseRef =>
      match subclassValue with
      | .classRef subRef =>
        match lookupClass st.classes baseRef, lookupClass st.classes subRef with
        | some baseClass, some subClass =>
          .ok { st with
            classes := updateClass st.classes subRef
              { subClass with
                  methods := mergeMethodTables baseClass.methods subClass.methods } }
        | _, _ => .error ⟨"Invalid class reference."⟩
      | _ => .error ⟨"Inherit applied to a non-class."⟩
    | _ => .error ⟨"Superclass must be a class."⟩
  | _, _ => .error ⟨"Stack underflow."⟩

/-! ## Generic instances and small helper lemmas -/

instance {ε α : Type} [DecidableEq ε] [DecidableEq α] : DecidableEq (Except ε α) :=
  fun x y =>
    match x, y with
    | .ok a, .ok b =>
        if h : a = b then isTrue (by rw [h])
        else isFalse (by intro hc; injection hc; contradiction)
    | .error a, .error b =>
        if h : a = b then isTrue (by rw [h])
        else isFalse (by intro hc; injection hc; contradiction)
    | .ok _, .error _ => isFalse (by intro hc; cases hc)
    | .error _, .ok _ => isFalse (by intro hc; cases hc)

theorem closeUpvalueOp_frames (s : VMRunState) (l : Nat) :
    (closeUpvalueOp s l).frames = s.frames := rfl

theorem closeUpvalueOp_stack (s : VMRunState) (l : Nat) :
    (closeUpvalueOp s l).stack = s.stack := rfl

/-! ## The two-`SetGlobal` scenario on a never-defined global

The globals table of a fresh `VirtualMachine` after `new` registered the
`clock` native function; `xKey` is the interned name of a global that is
never defined.  (Identities `0` and `1` model the two `Rc`
allocations.) -/

/-- The interned `"clock"` name in the fresh VM's globals table. -/
def clockKey : StringObj := ⟨0, "clock"⟩

/-- The interned name `"x"` of the never-defined global. -/
def xKey : StringObj := ⟨1, "x"⟩

/-- The globals table right after `VirtualMachine::new`
(`define_native_function("clock", ...)` inserted the one native). -/
def freshGlobals : Table :=
  ((Table.new.insert clockKey (.nativeFunction 0)).map (fun p => p.2)).getD Table.new

/-- The globals table after the first failed `SetGlobal` of `x` (its
insert rolled back by `remove`, leaving a tombstone). -/
def globalsAfterFirstSet : Table :=
  ((setGlobalArm freshGlobals xKey (.number 1)).map (fun p => p.2)).getD Table.new

/-! ## Invariant predicates used by the theorems -/

/-- A slot that is neither occupied nor a tombstone. -/
def isEmptySlot : TableEntry → Bool
  | .empty => true
  | _ => false

/-- An occupied slot. -/
def isValueSlot : TableEntry → Bool
  | .value _ _ => true
  | _ => false

/-- The number of occupied-or-tombstone slots; `Table.entries_count`
tracks exactly this quantity. -/
def countNonEmpty (entries : List TableEntry) : Nat :=
  entries.countP (fun e => !isEmptySlot e)

/-- The key/value pairs held in the occupied slots. -/
def valuePairs (entries : List TableEntry) : List (StringObj × LoxValue) :=
  entries.filterMap (fun e =>
    match e with
    | .value k v => some (k, v)
    | _ => none)

/-- The number of occupied slots. -/
def valuesCount (entries : List TableEntry) : Nat :=
  entries.countP isValueSlot

/-- An occupied slot whose key is findable by content (trivially true
for unoccupied slots). -/
def slotFindable (t : Table) : TableEntry → Prop
  | .value k _ => t.findString k.value = some (some k)
  | _ => True

/-- An occupied slot whose key identity is below `n` (trivially true for
unoccupied slots). -/
def slotIdBelow (n : Nat) : TableEntry → Prop
  | .value k _ => k.id < n
  | _ => True

/-- Well-formedness of a reachable `Table`: non-empty slot array, at
least one empty slot (the load factor guarantees it), `entries_count`
agreeing with the non-empty slot count, and every stored key being
findable by content (the open-addressing probe invariant). -/
def tableWF (t : Table) : Prop :=
  0 < t.entries.length ∧
  (∃ i < t.entries.length, slotAt t.entries i = .empty) ∧
  t.entriesCount = countNonEmpty t.entries ∧
  ∀ i < t.entries.length, slotFindable t (slotAt t.entries i)

/-- Freshness of an allocation counter with respect to the identities
stored in a table. -/
def tableIdsBelow (t : Table) (n : Nat) : Prop :=
  ∀ i < t.entries.length, slotIdBelow n (slotAt t.entries i)

/-- No two open upvalues refer to the same stack slot. -/
def openUpvaluesDistinct (l : List UpvalueObj) : Prop :=
  l.Pairwise (fun a b => a.stackIndex ≠ b.stackIndex)

instance (l : List UpvalueObj) : Decidable (openUpvaluesDistinct l) := by
  rw [openUpvaluesDistinct]
  infer_instance

instance (t : Table) (e : TableEntry) : Decidable (slotFindable t e) :=
  match e with
  | .value k _ => inferInstanceAs (Decidable (t.findString k.value = some (some k)))
  | .tombstone => .isTrue trivial
  | .empty => .isTrue trivial

instance (n : Nat) (e : TableEntry) : Decidable (slotIdBelow n e) :=
  match e with
  | .value k _ => inferInstanceAs (Decidable (k.id < n))
  | .tombstone => .isTrue trivial
  | .empty => .isTrue trivial

instance (t : Table) : Decidable (tableWF t) := by
  rw [tableWF]
  infer_instance

instance (t : Table) (n : Nat) : Decidable (tableIdsBelow t n) := by
  rw [tableIdsBelow]
  infer_instance

/-- A sample two-frame VM state about to execute `Return` (the callee's
frame starts at stack slot 1 and the result `7` is on top). -/
def sampleReturnState : VMRunState :=
  ⟨⟨1, 0, 1⟩, [⟨0, 0, 0⟩], [.nil, .closureRef 1, .number 7], [], [], 0⟩

/-- A sample VM state with open upvalues for stack slots 5 and 3. -/
def sampleUpvalueState : VMRunState :=
  ⟨⟨0, 0, 0⟩, [], [], [⟨0, some 5, none⟩, ⟨1, some 3, none⟩], [], 2⟩

/-- A sample state about to execute `Inherit`: base class 0 (with one
method `greet`) beneath subclass 1 (still without methods). -/
def sampleInheritState : InheritState :=
  ⟨[.classRef 0, .classRef 1],
    [(0, ⟨"Base", [(⟨10, "greet"⟩, .closureRef 7)]⟩), (1, ⟨"Derived", []⟩)]⟩

/-! ## Helper lemmas -/



theorem slotAt_oob {entries : List TableEntry} {i : Nat} (h : entries.length ≤ i) :
    slotAt entries i = .empty := by
  rw [slotAt, List.getElem?_eq_none h]
  rfl

theorem slotAt_set_eq {entries : List TableEntry} {i : Nat} (h : i < entries.length)
    (e : TableEntry) : slotAt (entries.set i e) i = e := by
  rw [slotAt, List.getElem?_set_self']
  simp [List.getElem?_eq_getElem h]

theorem slotAt_set_ne {entries : List TableEntry} {i j : Nat} (h : i ≠ j)
    (e : TableEntry) : slotAt (entries.set i e) j = slotAt entries j := by
  rw [slotAt, slotAt, List.getElem?_set_ne h]

theorem walk_step {n : Nat} (idx d : Nat) :
    ((idx + 1) % n + d) % n = (idx + (d + 1)) % n := by
  rw [Nat.mod_add_mod]
  congr 1
  omega

theorem d_pos_of_walk {entries : List TableEntry} {idx d : Nat}
    (hslot : slotAt entries ((idx + d) % entries.length) = .empty)
    (hne : slotAt entries idx ≠ .empty) : 0 < d := by
  rcases Nat.eq_zero_or_pos d with rfl | h
  · exfalso
    by_cases hin : idx < entries.length
    · rw [Nat.add_zero, Nat.mod_eq_of_lt hin] at hslot
      exact hne hslot
    · exact hne (slotAt_oob (Nat.le_of_not_lt hin))
  · exact h

theorem findStringAux_value_of_found {entries : List TableEntry} {s : String} :
    ∀ fuel idx k, findStringAux entries s fuel idx = some (some k) → k.value = s := by
  intro fuel
  induction fuel with
  | zero => intro idx k h; cases h
  | succ f ih =>
      intro idx k h
      rw [findStringAux] at h
      split at h
      · rename_i k' v'
        split at h
        · rename_i hv
          injection h with h1
          injection h1 with h2
          rw [← h2]
          exact hv
        · exact ih _ _ h
      · exact ih _ _ h
      · injection h with h1
        cases h1

theorem findStringAux_isSome {entries : List TableEntry} {s : String} :
    ∀ fuel idx, (∃ d < fuel, slotAt entries ((idx + d) % entries.length) = .empty) →
      (findStringAux entries s fuel idx).isSome := by
  intro fuel
  induction fuel with
  | zero =>
      intro idx h
      obtain ⟨d, hd, _⟩ := h
      omega
  | succ f ih =>
      intro idx h
      obtain ⟨d, hd, hslot⟩ := h
      rw [findStringAux]
      split
      · rename_i k' v' he
        have hne : slotAt entries idx ≠ .empty := by rw [he]; intro hc; cases hc
        have hdpos := d_pos_of_walk hslot hne
        split
        · rfl
        · apply ih
          refine ⟨d - 1, by omega, ?_⟩
          rw [walk_step]
          have hd1 : d - 1 + 1 = d := by omega
          rw [hd1]
          exact hslot
      · rename_i he
        have hne : slotAt entries idx ≠ .empty := by rw [he]; intro hc; cases hc
        have hdpos := d_pos_of_walk hslot hne
        apply ih
        refine ⟨d - 1, by omega, ?_⟩
        rw [walk_step]
        have hd1 : d - 1 + 1 = d := by omega
        rw [hd1]
        exact hslot
      · rfl

theorem findEntryAux_isSome {entries : List TableEntry} {key : StringObj} :
    ∀ fuel idx ft, (∃ d < fuel, slotAt entries ((idx + d) % entries.length) = .empty) →
      (findEntryAux entries key fuel idx ft).isSome := by
  intro fuel
  induction fuel with
  | zero =>
      intro idx ft h
      obtain ⟨d, hd, _⟩ := h
      omega
  | succ f ih =>
      intro idx ft h
      obtain ⟨d, hd, hslot⟩ := h
      rw [findEntryAux]
      split
      · rename_i k' v' he
        have hne : slotAt entries idx ≠ .empty := by rw [he]; intro hc; cases hc
        have hdpos := d_pos_of_walk hslot hne
        split
        · rfl
        · apply ih
          refine ⟨d - 1, by omega, ?_⟩
          rw [walk_step]
          have hd1 : d - 1 + 1 = d := by omega
          rw [hd1]
          exact hslot
      · rename_i he
        have hne : slotAt entries idx ≠ .empty := by rw [he]; intro hc; cases hc
        have hdpos := d_pos_of_walk hslot hne
        apply ih
        refine ⟨d - 1, by omega, ?_⟩
        rw [walk_step]
        have hd1 : d - 1 + 1 = d := by omega
        rw [hd1]
        exact hslot
      · rfl



theorem findEntryAux_fresh_char {entries : List TableEntry} {key : StringObj}
    (hfresh : ∀ i k v, slotAt entries i = .value k v → k.id ≠ key.id) :
    ∀ fuel idx ft p, idx < entries.length →
      findEntryAux entries key fuel idx ft = some p →
      (∃ pt, ft = some pt ∧ p = pt) ∨
      (ft = none ∧ ∃ d < fuel, p = (idx + d) % entries.length ∧
        (slotAt entries p = .empty ∨ slotAt entries p = .tombstone) ∧
        ∀ d' < d, ∃ k' v', slotAt entries ((idx + d') % entries.length) = .value k' v') := by
  intro fuel
  induction fuel with
  | zero => intro idx ft p _ h; cases h
  | succ f ih =>
      intro idx ft p hidx h
      have hnpos : 0 < entries.length := Nat.lt_of_le_of_lt (Nat.zero_le idx) hidx
      rw [findEntryAux] at h
      split at h
      · rename_i k' v' heq
        split at h
        · rename_i hk
          exact absurd hk (hfresh idx k' v' heq)
        · rcases ih ((idx + 1) % entries.length) ft p
              (Nat.mod_lt _ hnpos) h with ha | ⟨hft, d, hd, hp, hslotp, hpre⟩
          · exact Or.inl ha
          · refine Or.inr ⟨hft, d + 1, by omega, ?_, hslotp, ?_⟩
            · rw [hp, walk_step]
            · intro d'' hd''
              cases d'' with
              | zero =>
                  rw [Nat.add_zero, Nat.mod_eq_of_lt hidx]
                  exact ⟨k', v', heq⟩
              | succ d' =>
                  rw [← walk_step]
                  exact hpre d' (by omega)
      · rename_i heq
        rcases ih ((idx + 1) % entries.length) (some (ft.getD idx)) p
            (Nat.mod_lt _ hnpos) h with ⟨pt, hfteq, hppt⟩ | ⟨hft, _⟩
        · injection hfteq with hfteq
          cases ft with
          | some q =>
              rw [Option.getD_some] at hfteq
              exact Or.inl ⟨q, rfl, by rw [hppt, ← hfteq]⟩
          | none =>
              rw [Option.getD_none] at hfteq
              refine Or.inr ⟨rfl, 0, by omega, ?_, ?_, ?_⟩
              · rw [Nat.add_zero, Nat.mod_eq_of_lt hidx, hppt, ← hfteq]
              · rw [hppt, ← hfteq]
                exact Or.inr heq
              · intro d' hd'
                omega
        · cases hft
      · rename_i heq
        injection h with hp
        cases ft with
        | some q =>
            rw [Option.getD_some] at hp
            exact Or.inl ⟨q, rfl, hp.symm⟩
        | none =>
            rw [Option.getD_none] at hp
            refine Or.inr ⟨rfl, 0, by omega, ?_, ?_, ?_⟩
            · rw [Nat.add_zero, Nat.mod_eq_of_lt hidx, ← hp]
            · rw [← hp]
              exact Or.inl heq
            · intro d' hd'
              omega



theorem walk_ne {n idx d' d : Nat} (h1 : d' < d) (h2 : d < n) :
    (idx + d') % n ≠ (idx + d) % n := by
  intro he
  have h3 : d' ≡ d [MOD n] := Nat.ModEq.add_left_cancel' idx he
  rw [Nat.ModEq, Nat.mod_eq_of_lt (Nat.lt_trans h1 h2), Nat.mod_eq_of_lt h2] at h3
  omega

theorem findStringAux_after_set {entries : List TableEntry} {s : String} {key : StringObj}
    {v : LoxValue}
    (hnos : ∀ i k w, slotAt entries i = .value k w → k.value ≠ s)
    (hkv : key.value = s) :
    ∀ d fuel start p, start < entries.length → d < entries.length → d < fuel →
      (∀ d' < d, ∃ k' v', slotAt entries ((start + d') % entries.length) = .value k' v') →
      p = (start + d) % entries.length →
      findStringAux (entries.set p (.value key v)) s fuel start = some (some key) := by
  intro d
  induction d with
  | zero =>
      intro fuel start p hstart hdn hdf hpre hp
      obtain ⟨f, rfl⟩ : ∃ f, fuel = f + 1 := ⟨fuel - 1, by omega⟩
      rw [findStringAux]
      have hps : p = start := by rw [hp, Nat.add_zero, Nat.mod_eq_of_lt hstart]
      have hslot : slotAt (entries.set p (.value key v)) start = .value key v := by
        rw [hps]
        exact slotAt_set_eq hstart _
      rw [hslot]
      simp [hkv]
  | succ d0 ihd =>
      intro fuel start p hstart hdn hdf hpre hp
      obtain ⟨f, rfl⟩ : ∃ f, fuel = f + 1 := ⟨fuel - 1, by omega⟩
      rw [findStringAux]
      have hne : p ≠ start := by
        rw [hp]
        intro he
        have : (start + 0) % entries.length ≠ (start + (d0 + 1)) % entries.length :=
          walk_ne (by omega) hdn
        rw [Nat.add_zero, Nat.mod_eq_of_lt hstart] at this
        exact this he.symm
      obtain ⟨k', v', hv'⟩ := hpre 0 (by omega)
      rw [Nat.add_zero, Nat.mod_eq_of_lt hstart] at hv'
      have hslot : slotAt (entries.set p (.value key v)) start = .value k' v' := by
        rw [slotAt_set_ne hne, hv']
      have hkne : k'.value ≠ s := hnos start k' v' hv'
      simp only [hslot, if_neg hkne, List.length_set]
      apply ihd f ((start + 1) % entries.length) p (Nat.mod_lt _ (by omega)) (by omega) (by omega)
      · intro d' hd'
        rw [walk_step]
        exact hpre (d' + 1) (by omega)
      · rw [walk_step]
        exact hp



theorem slot_mem {entries : List TableEntry} {p : Nat} {e : TableEntry}
    (he : slotAt entries p = e) (hne : e ≠ .empty) : e ∈ entries := by
  by_cases hp : p < entries.length
  · rw [slotAt, List.getElem?_eq_getElem hp] at he
    simp only [Option.getD_some] at he
    rw [← he]
    exact List.getElem_mem _
  · rw [slotAt_oob (Nat.le_of_not_lt hp)] at he
    exact absurd he.symm hne

theorem exists_empty_of_count_lt {entries : List TableEntry}
    (h : countNonEmpty entries < entries.length) :
    ∃ i < entries.length, slotAt entries i = .empty := by
  by_contra hc
  push_neg at hc
  have hall : ∀ a ∈ entries, (!isEmptySlot a) = true := by
    intro a ha
    obtain ⟨i, hi, hget⟩ := List.mem_iff_getElem.mp ha
    have hslot : slotAt entries i = a := by
      rw [slotAt, List.getElem?_eq_getElem hi]
      simp [hget]
    cases a with
    | empty => exact absurd hslot (hc i hi)
    | tombstone => rfl
    | value k v => rfl
  have := List.countP_eq_length.mpr hall
  rw [countNonEmpty] at h
  omega

theorem exists_empty_dist {entries : List TableEntry} {start : Nat}
    (hstart : start < entries.length)
    (hempty : ∃ i < entries.length, slotAt entries i = .empty) :
    ∃ d < entries.length, slotAt entries ((start + d) % entries.length) = .empty := by
  obtain ⟨i, hi, he⟩ := hempty
  have hnpos : 0 < entries.length := by omega
  refine ⟨(entries.length + i - start) % entries.length, Nat.mod_lt _ hnpos, ?_⟩
  have h1 : (start + (entries.length + i - start) % entries.length) % entries.length =
      (start + (entries.length + i - start)) % entries.length := Nat.add_mod_mod _ _ _
  have h2 : start + (entries.length + i - start) = entries.length + i := by omega
  rw [h1, h2, Nat.add_comm entries.length i, Nat.add_mod_right, Nat.mod_eq_of_lt hi]
  exact he



theorem placeEntry_intern (t2 : Table) (key : StringObj) (v : LoxValue) (s : String)
    (hkey : key.value = s)
    (hn : 0 < t2.entries.length)
    (hempty : ∃ i < t2.entries.length, slotAt t2.entries i = .empty)
    (hnos : ∀ i k w, slotAt t2.entries i = .value k w → k.value ≠ s)
    (hfresh : ∀ i k w, slotAt t2.entries i = .value k w → k.id ≠ key.id)
    (htomb : ∀ p, slotAt t2.entries p = .tombstone → 0 < t2.entriesCount) :
    ∃ res t', t2.placeEntry key v = some (res, t') ∧
      t'.findString s = some (some key) := by
  have hstart : key.getHash % t2.entries.length < t2.entries.length := Nat.mod_lt _ hn
  have hexd := exists_empty_dist hstart hempty
  have hsome : (findEntry t2.entries key).isSome := by
    rw [findEntry]
    exact findEntryAux_isSome _ _ _ hexd
  obtain ⟨p, hp⟩ : ∃ p, findEntry t2.entries key = some p := by
    cases h : findEntry t2.entries key with
    | none => rw [h] at hsome; cases hsome
    | some p => exact ⟨p, rfl⟩
  have hchar := findEntryAux_fresh_char hfresh t2.entries.length
    (key.getHash % t2.entries.length) none p hstart (by rw [← findEntry]; exact hp)
  rcases hchar with ⟨pt, hcontr, _⟩ | ⟨_, d, hd, hpe, hslotp, hpre⟩
  · cases hcontr
  have hstartEq : fnvHash s % t2.entries.length = key.getHash % t2.entries.length := by
    rw [StringObj.getHash, hkey]
  rcases hslotp with hpemp | hptmb
  · refine ⟨.added, ⟨t2.entriesCount + 1, t2.entries.set p (.value key v)⟩, ?_, ?_⟩
    · simp only [Table.placeEntry, hp, hpemp]
    · rw [Table.findString]
      simp only [List.length_set]
      rw [if_neg (by omega)]
      rw [hstartEq]
      exact findStringAux_after_set hnos hkey d t2.entries.length _ p hstart (by omega) (by omega)
        hpre hpe
  · refine ⟨.replaced, ⟨t2.entriesCount, t2.entries.set p (.value key v)⟩, ?_, ?_⟩
    · simp only [Table.placeEntry, hp, hptmb]
    · have hcpos := htomb p hptmb
      rw [Table.findString]
      simp only [List.length_set]
      rw [if_neg (by omega)]
      rw [hstartEq]
      exact findStringAux_after_set hnos hkey d t2.entries.length _ p hstart (by omega) (by omega)
        hpre hpe



theorem countP_set_le {α : Type} (l : List α) (i : Nat) (x : α) (p : α → Bool) :
    (l.set i x).countP p ≤ l.countP p + 1 := by
  induction l generalizing i with
  | nil => simp
  | cons a tl ih =>
      cases i with
      | zero =>
          rw [List.set_cons_zero, List.countP_cons, List.countP_cons]
          have h1 : (if p x then 1 else 0) ≤ 1 := by split <;> omega
          have h2 : (0 : Nat) ≤ if p a then 1 else 0 := by omega
          omega
      | succ j =>
          rw [List.set_cons_succ, List.countP_cons, List.countP_cons]
          have := ih j
          omega

theorem slotAt_set_general {entries : List TableEntry} {i j : Nat} {e : TableEntry} :
    slotAt (entries.set i e) j =
      if i = j ∧ i < entries.length then e else slotAt entries j := by
  by_cases hij : i = j
  · subst hij
    by_cases hlen : i < entries.length
    · rw [if_pos ⟨rfl, hlen⟩]
      exact slotAt_set_eq hlen e
    · rw [if_neg (by tauto)]
      rw [List.set_eq_of_length_le (Nat.le_of_not_lt hlen)]
  · rw [if_neg (by tauto)]
    exact slotAt_set_ne hij e

theorem slotAt_replicate {m i : Nat} :
    slotAt (List.replicate m TableEntry.empty) i = .empty := by
  by_cases h : i < m
  · rw [slotAt, List.getElem?_eq_getElem (by simpa using h)]
    simp
  · exact slotAt_oob (by simpa using Nat.le_of_not_lt h)

theorem adjustSizeAux_spec : ∀ (old newE : List TableEntry) (cnt : Nat),
    0 < newE.length →
    (∀ i, slotAt newE i ≠ .tombstone) →
    countNonEmpty newE + valuesCount old < newE.length →
    ∃ ent' cnt', adjustSizeAux old newE cnt = some (ent', cnt') ∧
      ent'.length = newE.length ∧
      (∀ i, slotAt ent' i ≠ .tombstone) ∧
      countNonEmpty ent' ≤ countNonEmpty newE + valuesCount old ∧
      (∀ i k v, slotAt ent' i = .value k v →
        TableEntry.value k v ∈ old ∨ TableEntry.value k v ∈ newE) := by
  intro old
  induction old with
  | nil =>
      intro newE cnt hpos htomb hroom
      refine ⟨newE, cnt, rfl, rfl, htomb, ?_, ?_⟩
      · rw [valuesCount, List.countP_nil]
        omega
      · intro i k v h
        exact Or.inr (slot_mem h (by intro hc; cases hc))
  | cons e rest ih =>
      intro newE cnt hpos htomb hroom
      cases e with
      | tombstone =>
          have hvc : valuesCount (TableEntry.tombstone :: rest) = valuesCount rest := by
            rw [valuesCount, List.countP_cons]
            simp [isValueSlot, valuesCount]
          rw [hvc] at hroom
          obtain ⟨ent', cnt', heq, hlen, htomb', hcnt', htrans⟩ := ih newE cnt hpos htomb hroom
          refine ⟨ent', cnt', heq, hlen, htomb', by omega, ?_⟩
          intro i k v h
          rcases htrans i k v h with hl | hr
          · exact Or.inl (List.mem_cons.mpr (Or.inr hl))
          · exact Or.inr hr
      | empty =>
          have hvc : valuesCount (TableEntry.empty :: rest) = valuesCount rest := by
            rw [valuesCount, List.countP_cons]
            simp [isValueSlot, valuesCount]
          rw [hvc] at hroom
          obtain ⟨ent', cnt', heq, hlen, htomb', hcnt', htrans⟩ := ih newE cnt hpos htomb hroom
          refine ⟨ent', cnt', heq, hlen, htomb', by omega, ?_⟩
          intro i k v h
          rcases htrans i k v h with hl | hr
          · exact Or.inl (List.mem_cons.mpr (Or.inr hl))
          · exact Or.inr hr
      | value k v =>
          have hvc : valuesCount (TableEntry.value k v :: rest) = valuesCount rest + 1 := by
            rw [valuesCount, List.countP_cons]
            simp [isValueSlot, valuesCount]
          rw [hvc] at hroom
          have hclt : countNonEmpty newE < newE.length := by omega
          have hemp := exists_empty_of_count_lt hclt
          have hstart : k.getHash % newE.length < newE.length := Nat.mod_lt _ hpos
          have hsome : (findEntry newE k).isSome := by
            rw [findEntry]
            exact findEntryAux_isSome _ _ _ (exists_empty_dist hstart hemp)
          obtain ⟨dest, hdest⟩ : ∃ p, findEntry newE k = some p := by
            cases h : findEntry newE k with
            | none => rw [h] at hsome; cases hsome
            | some p => exact ⟨p, rfl⟩
          have hlen' : (newE.set dest (.value k v)).length = newE.length := List.length_set _ _ _
          have htomb2 : ∀ i, slotAt (newE.set dest (.value k v)) i ≠ .tombstone := by
            intro i
            rw [slotAt_set_general]
            split
            · intro hc; cases hc
            · exact htomb i
          have hcount2 : countNonEmpty (newE.set dest (.value k v)) ≤ countNonEmpty newE + 1 :=
            countP_set_le _ _ _ _
          have hroom2 : countNonEmpty (newE.set dest (.value k v)) + valuesCount rest <
              (newE.set dest (.value k v)).length := by
            rw [hlen']
            omega
          obtain ⟨ent', cnt', heq, hlen2, htomb', hcnt', htrans⟩ :=
            ih (newE.set dest (.value k v)) (cnt + 1) (by omega) htomb2 hroom2
          refine ⟨ent', cnt', ?_, ?_, htomb', ?_, ?_⟩
          · rw [adjustSizeAux, hdest]
            exact heq
          · rw [hlen2, hlen']
          · rw [hlen'] at hroom2
            omega
          · intro i k2 v2 h
            rcases htrans i k2 v2 h with hl | hr
            · exact Or.inl (List.mem_cons.mpr (Or.inr hl))
            · rcases List.mem_or_eq_of_mem_set hr with hmem | heqv
              · exact Or.inr hmem
              · rw [heqv]
                exact Or.inl (List.mem_cons.mpr (Or.inl rfl))



theorem findString_value_of_found {t : Table} {s : String} {k : StringObj}
    (h : t.findString s = some (some k)) : k.value = s := by
  rw [Table.findString] at h
  split at h
  · injection h with h1
    cases h1
  · exact findStringAux_value_of_found _ _ _ h

theorem adjustSize_intern (t : Table) (hn : 0 < t.entries.length) :
    ∃ tg, t.adjustSize (t.entries.length * 2) = some tg ∧
      0 < tg.entries.length ∧
      (∃ i < tg.entries.length, slotAt tg.entries i = .empty) ∧
      (∀ p, slotAt tg.entries p ≠ .tombstone) ∧
      (∀ i k v, slotAt tg.entries i = .value k v →
        ∃ j, j < t.entries.length ∧ slotAt t.entries j = .value k v) := by
  have hlenrep : (List.replicate (t.entries.length * 2) TableEntry.empty).length =
      t.entries.length * 2 := List.length_replicate _ _
  have hpos : 0 < (List.replicate (t.entries.length * 2) TableEntry.empty).length := by
    rw [hlenrep]
    omega
  have htomb0 : ∀ i, slotAt (List.replicate (t.entries.length * 2) TableEntry.empty) i ≠
      .tombstone := by
    intro i
    rw [slotAt_replicate]
    intro hc
    cases hc
  have hcnt0 : countNonEmpty (List.replicate (t.entries.length * 2) TableEntry.empty) = 0 := by
    rw [countNonEmpty, List.countP_eq_zero]
    intro a ha
    rw [List.eq_of_mem_replicate ha]
    simp [isEmptySlot]
  have hvle : valuesCount t.entries ≤ t.entries.length := List.countP_le_length _
  have hroom : countNonEmpty (List.replicate (t.entries.length * 2) TableEntry.empty) +
      valuesCount t.entries <
      (List.replicate (t.entries.length * 2) TableEntry.empty).length := by
    rw [hcnt0, hlenrep]
    omega
  obtain ⟨ent', cnt', heq, hlen, htomb', hcnt', htrans⟩ :=
    adjustSizeAux_spec t.entries _ 0 hpos htomb0 hroom
  refine ⟨⟨cnt', ent'⟩, ?_, ?_, ?_, htomb', ?_⟩
  · rw [Table.adjustSize, heq, Option.map_some']
  · show 0 < ent'.length
    rw [hlen, hlenrep]
    omega
  · show ∃ i < ent'.length, slotAt ent' i = .empty
    apply exists_empty_of_count_lt
    rw [hlen, hlenrep, hcnt0] at *
    omega
  · show ∀ i k v, slotAt ent' i = .value k v →
        ∃ j, j < t.entries.length ∧ slotAt t.entries j = .value k v
    intro i k v h
    rcases htrans i k v h with hmem | hmem
    · obtain ⟨j, hj, hget⟩ := List.mem_iff_getElem.mp hmem
      refine ⟨j, hj, ?_⟩
      rw [slotAt, List.getElem?_eq_getElem hj]
      simp [hget]
    · rw [List.eq_of_mem_replicate hmem] at h
      exact absurd (List.eq_of_mem_replicate hmem) (by intro hc; cases hc)

theorem mem_btreeInsert {u y : UpvalueObj} {l : List UpvalueObj}
    (h : y ∈ btreeInsert u l) : y = u ∨ y ∈ l := by
  induction l with
  | nil => simpa [btreeInsert] using h
  | cons x xs ih =>
      rw [btreeInsert] at h
      split at h
      · rcases List.mem_cons.mp h with h | h
        · exact Or.inl h
        · exact Or.inr h
      · rcases List.mem_cons.mp h with h | h
        · exact Or.inr (List.mem_cons.mpr (Or.inl h))
        · rcases ih h with h | h
          · exact Or.inl h
          · exact Or.inr (List.mem_cons.mpr (Or.inr h))

theorem btreeInsert_pairwise {u : UpvalueObj} {l : List UpvalueObj}
    (hall : ∀ x ∈ l, u.stackIndex ≠ x.stackIndex)
    (h : openUpvaluesDistinct l) : openUpvaluesDistinct (btreeInsert u l) := by
  induction l with
  | nil => simp [btreeInsert, openUpvaluesDistinct]
  | cons x xs ih =>
      rw [openUpvaluesDistinct] at h
      rcases List.pairwise_cons.mp h with ⟨hx, hxs⟩
      rw [openUpvaluesDistinct, btreeInsert]
      split
      · exact List.pairwise_cons.mpr ⟨hall, h⟩
      · refine List.pairwise_cons.mpr ⟨?_, ?_⟩
        · intro y hy
          rcases mem_btreeInsert hy with rfl | hy
          · exact fun e => hall x (List.mem_cons_self x xs) e.symm
          · exact hx y hy
        · exact ih (fun z hz => hall z (List.mem_cons.mpr (Or.inr hz))) hxs

theorem methodLookup_cons (x : StringObj × LoxValue) (xs : List (StringObj × LoxValue))
    (n : StringObj) :
    methodLookup (x :: xs) n = if x.1.id = n.id then some x.2 else methodLookup xs n := by
  rw [methodLookup, List.find?_cons]
  by_cases h : x.1.id = n.id
  · have hb : (x.1.id == n.id) = true := by simp [h]
    rw [hb]
    simp [h]
  · have hb : (x.1.id == n.id) = false := by simp [h]
    rw [hb]
    simp [h, methodLookup]

theorem methodLookup_map_replace (ms : List (StringObj × LoxValue)) (name : StringObj)
    (v : LoxValue) (name' : StringObj) :
    methodLookup (ms.map (fun p => if p.1.id == name.id then (p.1, v) else p)) name' =
      match methodLookup ms name' with
      | some w => if name'.id = name.id then some v else some w
      | none => none := by
  induction ms with
  | nil => simp [methodLookup]
  | cons p ps ih =>
      simp only [beq_iff_eq] at ih
      rw [List.map_cons]
      by_cases hr : p.1.id = name.id
      · have hrepl : (if (p.1.id == name.id) then (p.1, v) else p) = (p.1, v) := by simp [hr]
        rw [hrepl, methodLookup_cons, methodLookup_cons]
        by_cases hp : p.1.id = name'.id
        · have heq : name'.id = name.id := by rw [← hp, hr]
          simp [hp, heq]
        · simp [hp, ih]
      · have hrepl : (if (p.1.id == name.id) then (p.1, v) else p) = p := by simp [hr]
        rw [hrepl, methodLookup_cons, methodLookup_cons]
        by_cases hp : p.1.id = name'.id
        · have hne : ¬ name'.id = name.id := by
            rw [← hp]
            exact hr
          simp [hp, hne]
        · simp [hp, ih]

theorem methodLookup_methodInsert (ms : List (StringObj × LoxValue)) (name : StringObj)
    (v : LoxValue) (name' : StringObj) :
    methodLookup (methodInsert ms name v) name' =
      if name'.id = name.id then some v else methodLookup ms name' := by
  rw [methodInsert]
  split
  · rename_i hfound
    rw [methodLookup_map_replace]
    by_cases hnn : name'.id = name.id
    · have hpred : (fun p : StringObj × LoxValue => p.1.id == name'.id) =
          (fun p : StringObj × LoxValue => p.1.id == name.id) := by
        funext p
        rw [hnn]
      have hfind : (List.find? (fun p : StringObj × LoxValue => p.1.id == name'.id) ms).isSome := by
        rw [hpred]
        exact hfound
      cases hf : List.find? (fun p : StringObj × LoxValue => p.1.id == name'.id) ms with
      | none => rw [hf] at hfind; cases hfind
      | some w =>
          have hl : methodLookup ms name' = some w.2 := by
            rw [methodLookup, hf]
            rfl
          rw [hl]
    · cases h : methodLookup ms name' with
      | none => simp [hnn]
      | some w => simp [hnn]
  · rename_i hnotfound
    rw [methodLookup, List.find?_append]
    by_cases hnn : name'.id = name.id
    · have hpred : (fun p : StringObj × LoxValue => p.1.id == name'.id) =
          (fun p : StringObj × LoxValue => p.1.id == name.id) := by
        funext p
        rw [hnn]
      have hms : List.find? (fun p : StringObj × LoxValue => p.1.id == name'.id) ms = none := by
        rw [hpred]
        cases h : List.find? (fun p : StringObj × LoxValue => p.1.id == name.id) ms with
        | none => rfl
        | some w => rw [h] at hnotfound; simp at hnotfound
      rw [hms]
      simp [hnn]
    · have hne2 : ¬ name.id = name'.id := fun e => hnn e.symm
      cases h : List.find? (fun p : StringObj × LoxValue => p.1.id == name'.id) ms with
      | none => simp [methodLookup, hnn, hne2, h]
      | some w => simp [methodLookup, hnn, hne2, h]

theorem methodLookup_eq_none (ms : List (StringObj × LoxValue)) (n : StringObj) :
    methodLookup ms n = none ↔ ∀ p ∈ ms, p.1.id ≠ n.id := by
  rw [methodLookup]
  rw [Option.map_eq_none']
  rw [List.find?_eq_none]
  constructor
  · intro h p hp
    have := h p hp
    simpa using this
  · intro h p hp
    simpa using h p hp

theorem methodLookup_merge (base sub : List (StringObj × LoxValue))
    (hnodup : (base.map (fun p => p.1.id)).Nodup) (name : StringObj) :
    methodLookup (mergeMethodTables base sub) name =
      match methodLookup base name with
      | some w => some w
      | none => methodLookup sub name := by
  induction base generalizing sub with
  | nil => simp [mergeMethodTables, methodLookup]
  | cons b bs ih =>
      rw [List.map_cons, List.nodup_cons] at hnodup
      obtain ⟨hnotin, hnodup'⟩ := hnodup
      rw [mergeMethodTables, List.foldl_cons]
      have hfold : bs.foldl (fun acc p => methodInsert acc p.1 p.2) (methodInsert sub b.1 b.2) =
          mergeMethodTables bs (methodInsert sub b.1 b.2) := rfl
      rw [hfold, ih _ hnodup', methodLookup_cons]
      by_cases hb : b.1.id = name.id
      · have hbs : methodLookup bs name = none := by
          rw [methodLookup_eq_none]
          intro p hp he
          exact hnotin (by
            rw [List.mem_map]
            exact ⟨p, hp, by rw [he, hb]⟩)
        rw [hbs]
        rw [methodLookup_methodInsert]
        simp [hb]
      · cases hlb : methodLookup bs name with
        | some w => simp [hb]
        | none =>
            rw [methodLookup_methodInsert]
            have : ¬ name.id = b.1.id := fun e => hb e.symm
            simp [hb, this]

theorem skipWhitespacesAux_rest (rest : List Char) : ∀ cur ln,
    (skipWhitespacesAux rest cur ln).1 = rest.dropWhile rustIsWhitespace := by
  induction rest with
  | nil => intro cur ln; simp [skipWhitespacesAux]
  | cons c cs ih =>
      intro cur ln
      rw [skipWhitespacesAux, List.dropWhile_cons]
      by_cases h : rustIsWhitespace c
      · simp only [h, if_true]
        exact ih _ _
      · simp [h]

theorem skipWhitespacesAux_sync (rest : List Char) : ∀ cur ln,
    (skipWhitespacesAux rest cur ln).2.1 + (skipWhitespacesAux rest cur ln).1.length =
      cur + rest.length := by
  induction rest with
  | nil => intro cur ln; simp [skipWhitespacesAux]
  | cons c cs ih =>
      intro cur ln
      rw [skipWhitespacesAux]
      by_cases h : rustIsWhitespace c
      · simp only [h, if_true]
        rw [ih]
        simp
        omega
      · simp [h]

/-! ## Claim theorems -/

/-- Claim C1: whenever `Inherit` is dispatched (superclass candidate
beneath the subclass on top of the stack), a non-class superclass raises
the runtime error "Superclass must be a class.", and a class superclass
succeeds, copying the base class's method table into the subclass: every
base method is afterwards found in the subclass, and names absent from
the base keep the subclass's binding.  The dispatch arm is absent from
`VirtualMachine::run` in the source, so `inheritStep` is modelled from
the spec (see its doc comment). -/
theorem inherit_requires_class_and_copies_methods (st : InheritState)
    (rest : List LoxValue) (supV : LoxValue)
    (subRef : Nat) (subClass : ClassObj)
    (hstack : st.stack = rest ++ [supV, .classRef subRef])
    (hsub : lookupClass st.classes subRef = some subClass) :
    (supV.isClassObject = false →
      inheritStep st = .error ⟨"Superclass must be a class."⟩) ∧
    (∀ baseRef baseClass, supV = .classRef baseRef →
      lookupClass st.classes baseRef = some baseClass →
      (baseClass.methods.map (fun p => p.1.id)).Nodup →
      inheritStep st =
        .ok ({ st with
                classes := updateClass st.classes subRef
                  ({ subClass with
                      methods := mergeMethodTables baseClass.methods subClass.methods }) }) ∧
      ∀ name : StringObj,
        methodLookup (mergeMethodTables baseClass.methods subClass.methods) name =
          match methodLookup baseClass.methods name with
          | some w => some w
          | none => methodLookup subClass.methods name) := by
  have hlast : st.stack.getLast? = some (.classRef subRef) := by
    rw [hstack, show rest ++ [supV, LoxValue.classRef subRef] =
      (rest ++ [supV]) ++ [LoxValue.classRef subRef] by simp]
    exact List.getLast?_concat _
  have hdrop : st.stack.dropLast = rest ++ [supV] := by
    rw [hstack, show rest ++ [supV, LoxValue.classRef subRef] =
      (rest ++ [supV]) ++ [LoxValue.classRef subRef] by simp]
    exact List.dropLast_concat
  have hlast2 : st.stack.dropLast.getLast? = some supV := by
    rw [hdrop]
    exact List.getLast?_concat _
  constructor
  · intro hnotclass
    rw [inheritStep, hlast, hlast2]
    cases supV with
    | classRef r => rw [LoxValue.isClassObject] at hnotclass; cases hnotclass
    | bool b => rfl
    | nil => rfl
    | number q => rfl
    | string s => rfl
    | functionRef r => rfl
    | nativeFunction r => rfl
    | closureRef r => rfl
    | instanceRef r => rfl
    | boundMethodRef r => rfl
  · intro baseRef baseClass hsup hbase hnodup
    subst hsup
    constructor
    · rw [inheritStep, hlast, hlast2]
      simp only [hbase, hsub]
    · intro name
      exact methodLookup_merge baseClass.methods subClass.methods hnodup name

/-- Claim C1 (witness): base class 0 with method `greet` beneath
subclass 1; `Inherit` copies `greet` down. -/
theorem inherit_requires_class_and_copies_methods_witness :
    (sampleInheritState.stack = [] ++ [.classRef 0, .classRef 1] ∧
      lookupClass sampleInheritState.classes 1 = some ⟨"Derived", []⟩) ∧
    ((LoxValue.classRef 0).isClassObject = false →
      inheritStep sampleInheritState = .error ⟨"Superclass must be a class."⟩) ∧
    (∀ baseRef baseClass, LoxValue.classRef 0 = LoxValue.classRef baseRef →
      lookupClass sampleInheritState.classes baseRef = some baseClass →
      (baseClass.methods.map (fun p => p.1.id)).Nodup →
      inheritStep sampleInheritState =
        .ok ({ sampleInheritState with
                classes := updateClass sampleInheritState.classes 1
                  ({ (⟨"Derived", []⟩ : ClassObj) with
                      methods := mergeMethodTables baseClass.methods
                        (⟨"Derived", []⟩ : ClassObj).methods }) }) ∧
      ∀ name : StringObj,
        methodLookup (mergeMethodTables baseClass.methods
            (⟨"Derived", []⟩ : ClassObj).methods) name =
          match methodLookup baseClass.methods name with
          | some w => some w
          | none => methodLookup (⟨"Derived", []⟩ : ClassObj).methods name) :=
  ⟨⟨by decide, by decide⟩,
    inherit_requires_class_and_copies_methods sampleInheritState []
      (.classRef 0) 1 ⟨"Derived", []⟩ (by decide) (by decide)⟩

/-- Claim C2: the claim asserts that `<`, `<=`, `>`, `>=` carry infix
precedence `Comparison`, strictly above `Equality`, so that parsing at
level `Comparison` still consumes a comparison operator.  The source's
`From<&TokenType> for Precedence` table instead maps all four comparison
tokens to `Equality` (the same level as `==`/`!=`), the `Comparison`
variant is assigned to no token at all, and the `parse_precendence` loop
guard at level `Comparison` does not admit a following `<`. -/
theorem comparison_tokens_mapped_to_equality_precedence :
    precedenceOfTokenType .less = .equality ∧
    precedenceOfTokenType .lessEqual = .equality ∧
    precedenceOfTokenType .greater = .equality ∧
    precedenceOfTokenType .greaterEqual = .equality ∧
    precedenceOfTokenType .equalEqual = .equality ∧
    precedenceOfTokenType .bangEqual = .equality ∧
    Precedence.equality.getHigher = .comparison ∧
    Precedence.equality.toU8 < Precedence.comparison.toU8 ∧
    parsePrecedenceConsumes .comparison .less = false ∧
    parsePrecedenceConsumes .equality .less = true ∧
    (∀ t : TokenType, precedenceOfTokenType t ≠ .comparison) := by
  refine ⟨rfl, rfl, rfl, rfl, rfl, rfl, rfl, by decide, rfl, rfl, ?_⟩
  intro t
  cases t <;> decide

set_option maxRecDepth 4000 in
/-- Claim C3: the claim asserts that a constant-pool index above 255
triggers the "Too many constants in one chunk" compile error and that no
instruction is emitted with a truncated index.  The source guard is
`index as u8 > u8::MAX`, which truncates before comparing and therefore
never fires: with 256 constants already in the pool, `emit_constant`
emits `Constant(0)` (index 256 truncated to 0) and
`make_identifier_constant` returns index 0, neither setting the error
flag. -/
theorem constant_overflow_guard_never_fires :
    (∀ index : Nat, ¬ index % 256 > 255) ∧
    emitConstant (.number 5) ⟨List.replicate 256 .nil, [], false⟩ =
      ⟨List.replicate 256 LoxValue.nil ++ [.number 5], [.constant 0], false⟩ ∧
    makeIdentifierConstant (.string ⟨0, "x"⟩) ⟨List.replicate 256 .nil, [], false⟩ =
      (0, ⟨List.replicate 256 LoxValue.nil ++ [.string ⟨0, "x"⟩], [], false⟩) := by
  refine ⟨?_, ?_, ?_⟩
  · intro index
    have h : index % 256 < 256 := Nat.mod_lt index (by decide)
    omega
  · simp only [emitConstant, makeConstant, List.length_replicate]
    norm_num
  · simp only [makeIdentifierConstant, makeConstant, List.length_replicate]
    norm_num

/-- Claim C4: starting from the fresh VM's globals table, assigning the
never-defined global `x` twice in a row: the first `SetGlobal` reports
`Undefined variable` (its insert came back `Added` and was rolled back
with `remove`, leaving a tombstone in `x`'s probe slot), while the
second `SetGlobal`'s insert finds the tombstone, reports `Replaced`, and
silently creates the global with the assigned value. -/
theorem tombstone_makes_second_set_global_succeed :
    freshGlobals.get xKey = some (.error ⟨⟩) ∧
    (setGlobalArm freshGlobals xKey (.number 1)).map (fun p => p.1) =
      some (.error .undefinedVariable) ∧
    slotAt globalsAfterFirstSet.entries 7 = .tombstone ∧
    globalsAfterFirstSet.get xKey = some (.error ⟨⟩) ∧
    (globalsAfterFirstSet.insert xKey (.number 2)).map (fun p => p.1) =
      some .replaced ∧
    (setGlobalArm globalsAfterFirstSet xKey (.number 2)).map (fun p => p.1) =
      some (.ok ()) ∧
    (setGlobalArm globalsAfterFirstSet xKey (.number 2)).map
        (fun p => p.2.get xKey) =
      some (some (.ok (.number 2))) := by
  refine ⟨by decide, by decide, by decide, by decide, by decide, by decide, by decide⟩

/-- Claim C5: the claim states that `SetGlobal` on an absent name always
raises `Undefined variable` and never implicitly creates the global.
Evaluating the code at the failing input (the second assignment of the
never-defined `x`, after the first assignment's rollback left a
tombstone): the name is absent (`get` fails), yet the arm succeeds and
the global exists afterwards — contradicting the claim's universal
error guarantee.  The first-assignment path and the name-present path do
behave as claimed. -/
theorem set_global_on_absent_name_can_succeed :
    globalsAfterFirstSet.get xKey = some (.error ⟨⟩) ∧
    (setGlobalArm globalsAfterFirstSet xKey (.number 2)).map (fun p => p.1) =
      some (.ok ()) ∧
    (setGlobalArm globalsAfterFirstSet xKey (.number 2)).map
        (fun p => p.2.get xKey) =
      some (some (.ok (.number 2))) := by
  refine ⟨by decide, by decide, by decide⟩

/-- Claim C6 (counterexample): on the source text `"_x1"`, `scan_token`
does not return an `Identifier` token as the claim states; it returns
the lexical error "Unexpected character." (`'_'` fails the
`is_alphabetic` test and no match arm accepts it). -/
theorem underscore_lexeme_not_identifier_counterexample :
    scanToken (initLexer "_x1") =
      some (.error ⟨"Unexpected character.", 1⟩) ∧
    ∀ t st', scanToken (initLexer "_x1") ≠ some (.ok (t, st')) := by
  have h : scanToken (initLexer "_x1") =
      some (.error ⟨"Unexpected character.", 1⟩) := by decide
  refine ⟨h, ?_⟩
  intro t st' hc
  rw [h] at hc
  cases hc

/-- Claim C6 (amended): for every lexer state in synchronisation (the
consumed-character count plus the remaining characters account for the
whole source, as holds for ASCII sources) whose next lexeme begins with
`_`, `scan_token` returns the lexical error "Unexpected character."
rather than an identifier token: identifiers must begin with an
alphabetic character. -/
theorem underscore_lexeme_is_lexical_error (st : LexState)
    (hsync : st.originalLen = st.current + st.rest.length)
    (hhead : (st.rest.dropWhile rustIsWhitespace).head? = some '_') :
    scanToken st = some (.error ⟨"Unexpected character.", (skipWhitespaces st).line⟩) := by
  obtain ⟨tl, htl⟩ : ∃ tl, st.rest.dropWhile rustIsWhitespace = '_' :: tl := by
    cases h : st.rest.dropWhile rustIsWhitespace with
    | nil => rw [h] at hhead; cases hhead
    | cons a as =>
        rw [h] at hhead
        simp at hhead
        exact ⟨as, by rw [hhead]⟩
  have hrest1 : (skipWhitespaces st).rest = '_' :: tl := by
    rw [skipWhitespaces]
    simp only
    rw [skipWhitespacesAux_rest]
    exact htl
  have hsync1 : (skipWhitespaces st).current + (skipWhitespaces st).rest.length =
      st.current + st.rest.length := by
    rw [skipWhitespaces]
    simp only
    exact skipWhitespacesAux_sync _ _ _
  have hnotend : ¬ (st.originalLen ≤ (skipWhitespaces st).current) := by
    rw [hrest1] at hsync1
    simp at hsync1
    omega
  have hne' : ¬ ((skipWhitespaces st).originalLen ≤ (skipWhitespaces st).current) := hnotend
  simp only [scanToken, scanTokenAux, LexState.isAtEnd, LexState.advance, LexState.peek, hrest1,
    List.head?_cons, Option.getD_some, List.tail_cons, decide_eq_true_eq, hne', if_false,
    rustIsAlphabetic, rustIsAsciiDigit]
  have h1 : '_'.isAlpha = false := by decide
  have h2 : '_'.isDigit = false := by decide
  simp only [h1, h2, if_false]
  rfl

/-- Claim C6 (witness for the amended theorem), at the source
`"  _abc"`. -/
theorem underscore_lexeme_is_lexical_error_witness :
    ((initLexer "  _abc").originalLen =
        (initLexer "  _abc").current + (initLexer "  _abc").rest.length ∧
      ((initLexer "  _abc").rest.dropWhile rustIsWhitespace).head? = some '_') ∧
    scanToken (initLexer "  _abc") =
      some (.error ⟨"Unexpected character.", (skipWhitespaces (initLexer "  _abc")).line⟩) :=
  ⟨⟨by decide, by decide⟩,
    underscore_lexeme_is_lexical_error (initLexer "  _abc") (by decide) (by decide)⟩

/-- Claim C7: whenever the VM dispatches `Return` with at least one
caller frame remaining (and the returning frame's base inside the
stack, as the call protocol guarantees), the stack is truncated to the
frame's `stack_start` and the single result is pushed — the new stack
length is exactly `stack_start + 1` — and the call-frame depth (saved
frames plus the executing frame) decreases by exactly one. -/
theorem return_arm_stack_and_frame_depth (st : VMRunState)
    (hframes : st.frames ≠ [])
    (hstart : st.frame.stackStart < st.stack.length) :
    ∃ st', returnArm st = some (.running st') ∧
      st'.stack.length = st.frame.stackStart + 1 ∧
      frameDepth st' = frameDepth st - 1 := by
  obtain ⟨result, hres⟩ : ∃ r, st.stack.getLast? = some r := by
    cases h : st.stack.getLast? with
    | none =>
        rw [List.getLast?_eq_none_iff] at h
        rw [h] at hstart
        simp at hstart
    | some r => exact ⟨r, rfl⟩
  obtain ⟨f, fs, hfs⟩ : ∃ f fs, st.frames = f :: fs := by
    cases h : st.frames with
    | nil => exact absurd h hframes
    | cons f fs => exact ⟨f, fs, rfl⟩
  simp only [returnArm, hres, closeUpvalueOp_frames, closeUpvalueOp_stack, hfs]
  refine ⟨_, rfl, ?_, ?_⟩
  · simp only [List.length_append, List.length_take, List.length_dropLast, List.length_cons,
      List.length_nil]
    omega
  · simp only [frameDepth, hfs, List.length_cons]
    omega

/-- Claim C7 (witness): a two-frame state returning the number `7`. -/
theorem return_arm_stack_and_frame_depth_witness :
    (sampleReturnState.frames ≠ [] ∧
      sampleReturnState.frame.stackStart < sampleReturnState.stack.length) ∧
    ∃ st', returnArm sampleReturnState = some (.running st') ∧
      st'.stack.length = sampleReturnState.frame.stackStart + 1 ∧
      frameDepth st' = frameDepth sampleReturnState - 1 :=
  ⟨⟨by decide, by decide⟩,
    return_arm_stack_and_frame_depth sampleReturnState (by decide) (by decide)⟩

/-- Claim C8: under the invariant that no two open upvalues share a
stack index, `capture_upvalue` for a slot that already has an open
upvalue returns that existing object and leaves the set unchanged;
capturing always preserves the invariant, as does `close_upvalue`. -/
theorem open_upvalues_unique_and_shared (st : VMRunState) (index : Nat)
    (hinv : openUpvaluesDistinct st.openUpvalues) :
    (∀ u ∈ st.openUpvalues, u.stackIndex = some index →
        (captureUpvalue st index).1 = u ∧ (captureUpvalue st index).2 = st) ∧
    openUpvaluesDistinct (captureUpvalue st index).2.openUpvalues ∧
    (∀ last, openUpvaluesDistinct (closeUpvalueOp st last).openUpvalues) := by
  refine ⟨?_, ?_, ?_⟩
  · intro u hu hui
    cases hfind : st.openUpvalues.find? (fun v => v.stackIndex == some index) with
    | none =>
        rw [List.find?_eq_none] at hfind
        exact absurd (by simp [hui]) (hfind u hu)
    | some a =>
        have ha : a.stackIndex = some index := by
          have := List.find?_some hfind
          simpa using this
        have hamem : a ∈ st.openUpvalues := List.mem_of_find?_eq_some hfind
        have hua : u = a := by
          by_contra hne
          have hsymm : Symmetric (fun a b : UpvalueObj => a.stackIndex ≠ b.stackIndex) :=
            fun _ _ h e => h e.symm
          exact hinv.forall hsymm hu hamem hne (by rw [hui, ha])
        subst hua
        constructor
        · simp [captureUpvalue, hfind]
        · simp [captureUpvalue, hfind]
  · cases hfind : st.openUpvalues.find? (fun v => v.stackIndex == some index) with
    | none =>
        have hall : ∀ x ∈ st.openUpvalues,
            (⟨st.nextUpvalueId, some index, none⟩ : UpvalueObj).stackIndex ≠ x.stackIndex := by
          intro x hx
          rw [List.find?_eq_none] at hfind
          have := hfind x hx
          simp at this
          simp
          exact fun e => this e.symm
        simp only [captureUpvalue, hfind]
        exact btreeInsert_pairwise hall hinv
    | some a =>
        simpa [captureUpvalue, hfind] using hinv
  · intro last
    exact hinv.filter _

/-- Claim C8 (witness): a set with open upvalues for slots 5 and 3;
capturing slot 5 returns the existing object. -/
theorem open_upvalues_unique_and_shared_witness :
    openUpvaluesDistinct sampleUpvalueState.openUpvalues ∧
    (∀ u ∈ sampleUpvalueState.openUpvalues, u.stackIndex = some 5 →
        (captureUpvalue sampleUpvalueState 5).1 = u ∧
        (captureUpvalue sampleUpvalueState 5).2 = sampleUpvalueState) ∧
    openUpvaluesDistinct (captureUpvalue sampleUpvalueState 5).2.openUpvalues ∧
    ∀ last, openUpvaluesDistinct (closeUpvalueOp sampleUpvalueState last).openUpvalues :=
  ⟨by decide, open_upvalues_unique_and_shared sampleUpvalueState 5 (by decide)⟩

theorem tableWF_find {t : Table}
    (h : ∀ i < t.entries.length, slotFindable t (slotAt t.entries i)) :
    ∀ i < t.entries.length, ∀ k v, slotAt t.entries i = .value k v →
      t.findString k.value = some (some k) := by
  intro i hi k v hslot
  have hh := h i hi
  rw [hslot] at hh
  exact hh

theorem tableIdsBelow_bound {t : Table} {n : Nat} (h : tableIdsBelow t n) :
    ∀ i < t.entries.length, ∀ k v, slotAt t.entries i = .value k v → k.id < n := by
  intro i hi k v hslot
  have hh := h i hi
  rw [hslot] at hh
  exact hh

/-- Claim C9: interning is idempotent — for every string `s` and every
well-formed intern table, `new_string_object` called twice with the same
text returns the same `StringObject` (the same `Rc` identity), with the
table and allocator unchanged by the second call; the returned object
carries the text `s`.  Well-formedness (`tableWF`) is the invariant of
every reachable table: a non-full slot array with an accurate
`entries_count` in which every stored key is findable by content;
`tableIdsBelow` says the allocator counter is fresh.  This covers both
the found-in-table path and the allocate-and-insert path, including a
load-factor growth rehash during the insert. -/
theorem intern_idempotent (s : String) (t : Table) (n : Nat)
    (hwf : tableWF t) (hids : tableIdsBelow t n) :
    ∃ k1 t1 n1, newStringObject s t n = some (k1, t1, n1) ∧ k1.value = s ∧
      newStringObject s t1 n1 = some (k1, t1, n1) := by
  obtain ⟨hn, hempty, hcnt, hfind0⟩ := hwf
  have hfind := tableWF_find hfind0
  have hids2 := tableIdsBelow_bound hids
  obtain ⟨x, hx⟩ : ∃ x, t.findString s = some x := by
    rw [Table.findString]
    by_cases hc : t.entriesCount = 0
    · exact ⟨none, by rw [if_pos hc]⟩
    · rw [if_neg hc]
      have hstart : fnvHash s % t.entries.length < t.entries.length := Nat.mod_lt _ hn
      have hs := findStringAux_isSome (s := s) t.entries.length (fnvHash s % t.entries.length)
        (exists_empty_dist hstart hempty)
      cases h : findStringAux t.entries s t.entries.length (fnvHash s % t.entries.length) with
      | none => rw [h] at hs; cases hs
      | some y => exact ⟨y, rfl⟩
  have hslot_bound : ∀ i k w, slotAt t.entries i = TableEntry.value k w → i < t.entries.length := by
    intro i k w h
    by_contra hc
    rw [slotAt_oob (Nat.le_of_not_lt hc)] at h
    cases h
  cases x with
  | some k =>
      have hkv : k.value = s := findString_value_of_found hx
      refine ⟨k, t, n, ?_, hkv, ?_⟩
      · rw [newStringObject, hx]
      · rw [newStringObject, hx]
  | none =>
      have hnos : ∀ i k w, slotAt t.entries i = .value k w → k.value ≠ s := by
        intro i k w h hv
        have := hfind i (hslot_bound i k w h) k w h
        rw [hv, hx] at this
        injection this with h1
        cases h1
      have hfresh : ∀ i k w, slotAt t.entries i = .value k w →
          k.id ≠ (⟨n, s⟩ : StringObj).id := by
        intro i k w h
        have := hids2 i (hslot_bound i k w h) k w h
        show k.id ≠ n
        omega
      have hkeyval : (⟨n, s⟩ : StringObj).value = s := rfl
      by_cases hgrow : t.entriesCount + 1 > tableMaxLoadLimit t.entries.length
      · obtain ⟨tg, hadj, hgn, hgempty, hgtomb, hgtrans⟩ := adjustSize_intern t hn
        have hnos2 : ∀ i k w, slotAt tg.entries i = .value k w → k.value ≠ s := by
          intro i k w h
          obtain ⟨j, hj, hsl⟩ := hgtrans i k w h
          exact hnos j k w hsl
        have hfresh2 : ∀ i k w, slotAt tg.entries i = .value k w →
            k.id ≠ (⟨n, s⟩ : StringObj).id := by
          intro i k w h
          obtain ⟨j, hj, hsl⟩ := hgtrans i k w h
          exact hfresh j k w hsl
        have htomb2 : ∀ p, slotAt tg.entries p = .tombstone → 0 < tg.entriesCount := by
          intro p hp
          exact absurd hp (hgtomb p)
        obtain ⟨res, t', hplace, hfound'⟩ :=
          placeEntry_intern tg ⟨n, s⟩ .nil s hkeyval hgn hgempty hnos2 hfresh2 htomb2
        have hins : t.insert ⟨n, s⟩ .nil = some (res, t') := by
          rw [Table.insert]
          simp only [if_pos hgrow, hadj]
          exact hplace
        refine ⟨⟨n, s⟩, t', n + 1, ?_, rfl, ?_⟩
        · rw [newStringObject, hx]
          simp only [hins]
        · rw [newStringObject, hfound']
      · have htombT : ∀ p, slotAt t.entries p = .tombstone → 0 < t.entriesCount := by
          intro p hp
          rw [hcnt, countNonEmpty]
          rw [List.countP_pos_iff]
          exact ⟨.tombstone, slot_mem hp (by intro hc; cases hc), rfl⟩
        obtain ⟨res, t', hplace, hfound'⟩ :=
          placeEntry_intern t ⟨n, s⟩ .nil s hkeyval hn hempty hnos hfresh htombT
        have hins : t.insert ⟨n, s⟩ .nil = some (res, t') := by
          rw [Table.insert]
          simp only [if_neg hgrow]
          exact hplace
        refine ⟨⟨n, s⟩, t', n + 1, ?_, rfl, ?_⟩
        · rw [newStringObject, hx]
          simp only [hins]
        · rw [newStringObject, hfound']

/-- Claim C9 (witness): interning `"foo"` twice into a fresh intern
table returns the same object. -/
theorem intern_idempotent_witness :
    (tableWF Table.new ∧ tableIdsBelow Table.new 0) ∧
    ∃ k1 t1 n1, newStringObject "foo" Table.new 0 = some (k1, t1, n1) ∧
      k1.value = "foo" ∧
      newStringObject "foo" t1 n1 = some (k1, t1, n1) :=
  ⟨⟨by decide, by decide⟩, intern_idempotent "foo" Table.new 0 (by decide) (by decide)⟩

/-- Claim C10: when both operands of `Divide` are numbers, the dispatch
raises a runtime error exactly when the divisor is `0` (namely
`DivideByZero`), and otherwise replaces the operands with their
quotient on the stack. -/
theorem divide_arm_error_iff_zero_divisor (rest : List LoxValue) (a b : Rat) :
    ((∃ e, divideArm (rest ++ [.number a, .number b]) = .error e) ↔ b = 0) ∧
    (b = 0 → divideArm (rest ++ [.number a, .number b]) = .error .divideByZero) ∧
    (b ≠ 0 → divideArm (rest ++ [.number a, .number b]) = .ok (rest ++ [.number (a / b)])) := by
  have h1 : (rest ++ [LoxValue.number a, LoxValue.number b]) =
      (rest ++ [LoxValue.number a]) ++ [LoxValue.number b] := by
    simp
  rw [h1]
  simp only [divideArm, stackPop, List.getLast?_concat, List.dropLast_concat, divideNumbers,
    LoxValue.getNumber]
  by_cases hb : b = 0 <;> simp [hb]

/-- Claim C10 (witness): dividing 6 by 3 pushes 2; the error cases at
divisor 0 follow from the theorem at `b = 0`. -/
theorem divide_arm_error_iff_zero_divisor_witness :
    ((3 : Rat) ≠ 0 →
      divideArm ([] ++ [.number 6, .number 3]) = .ok ([] ++ [.number (6 / 3)])) ∧
    divideArm ([] ++ [.number 6, .number 0]) = .error .divideByZero :=
  ⟨(divide_arm_error_iff_zero_divisor [] 6 3).2.2,
    (divide_arm_error_iff_zero_divisor [] 6 0).2.1 rfl⟩

end Rustylox
